import Mathlib

/-!
# minigrad.hpp : a scalar reverse-mode automatic-differentiation engine

Shallow embedding of `src/minigrad.hpp`.

* A `shared_ptr<Scalar>` is a natural number (the identity of the node); the
  store of all live `Scalar` objects is a `Heap` mapping identities to their
  fields, `next` being the identity the next `make_shared` hands out.
* `double` is modelled by `ℚ` (exact arithmetic, no rounding, no infinities
  or NaN); the exponent of `pow` is an integer.
* The `function<void()>` stored in `_backward` is a `Closure`: a tag for the
  lambda together with the pointers (and exponent) it captures, in the order
  of the capture list.
* The recursion of `topo_sort` is bounded by a fuel argument (the depth of the
  call stack); it returns `none` when the fuel runs out.
-/

namespace MiniGrad

/-! ## Data model -/

/-- The lambdas assigned to `Scalar::_backward`, with their captures. -/
inductive Closure where
  /-- the default `[]() {}` of a freshly created node -/
  | noop : Closure
  /-- lambda of `operator+`, captures `[o, a, b]` -/
  | add (o a b : Nat) : Closure
  /-- lambda of `operator*`, captures `[a, b, o]` -/
  | mul (a b o : Nat) : Closure
  /-- lambda of `pow`, captures `[a, o, v]` -/
  | pow (a o : Nat) (v : ℤ) : Closure
  /-- lambda of `Scalar::relu`, captures `[a = shared_from_this(), o]` -/
  | relu (a o : Nat) : Closure
  deriving DecidableEq, Repr

/-- The fields of `class Scalar`. -/
structure Scalar where
  data : ℚ
  prev : List Nat
  grad : ℚ
  _backward : Closure
  deriving DecidableEq, Repr

/-- The store of `Scalar` objects: `cell p` are the fields of the object with
identity `p`, and `next` is the first identity not handed out yet. -/
structure Heap where
  next : Nat
  cell : Nat → Scalar

/-- A store with no object allocated. -/
def Heap.empty : Heap :=
  { next := 0, cell := fun _ => { data := 0, prev := [], grad := 0, _backward := Closure.noop } }

/-- Overwrite the fields of object `p`. -/
def Heap.write (h : Heap) (p : Nat) (s : Scalar) : Heap :=
  { next := h.next, cell := fun q => if q = p then s else h.cell q }

/-- Accessor `getData`. -/
def Scalar.getData (h : Heap) (p : Nat) : ℚ := (h.cell p).data

/-- Accessor `getGrad`. -/
def Scalar.getGrad (h : Heap) (p : Nat) : ℚ := (h.cell p).grad

/-- Accessor `getPrev`. -/
def Scalar.getPrev (h : Heap) (p : Nat) : List Nat := (h.cell p).prev

/-- Mutator `setGrad`: `grad = g`. -/
def Scalar.setGrad (h : Heap) (p : Nat) (g : ℚ) : Heap :=
  h.write p { h.cell p with grad := g }

/-- Mutator `setData`: `data = d`. -/
def Scalar.setData (h : Heap) (p : Nat) (d : ℚ) : Heap :=
  h.write p { h.cell p with data := d }

/-- The statement `p->grad += x`. -/
def addGrad (h : Heap) (p : Nat) (x : ℚ) : Heap :=
  Scalar.setGrad h p (Scalar.getGrad h p + x)

/-! ## Graph builder -/

/-- Constructor `Scalar::create(d)`: `make_shared<Scalar>(private_key, d)`; `prev`
is empty, `grad = 0.0` and `_backward = []() {}` by the member initialisers. -/
def Scalar.create (h : Heap) (d : ℚ) : Heap × Nat :=
  ({ next := h.next + 1,
     cell := fun q => if q = h.next then
        { data := d, prev := [], grad := 0, _backward := Closure.noop } else h.cell q },
   h.next)

/-- The statement `o->prev.push_back(a)`. -/
def pushPrev (h : Heap) (o a : Nat) : Heap :=
  h.write o { h.cell o with prev := (h.cell o).prev ++ [a] }

/-- The statement `o->_backward = op_backward`. -/
def setBackward (h : Heap) (o : Nat) (c : Closure) : Heap :=
  h.write o { h.cell o with _backward := c }

/-- Operator `operator+(shared_ptr<Scalar> a, shared_ptr<Scalar> b)`. -/
def op_add (h : Heap) (a b : Nat) : Heap × Nat :=
  let (h1, o) := Scalar.create h (Scalar.getData h a + Scalar.getData h b)
  let h2 := pushPrev h1 o a
  let h3 := pushPrev h2 o b
  (setBackward h3 o (Closure.add o a b), o)

/-- Operator `operator+(shared_ptr<Scalar> a, double v)`. -/
def op_add_sd (h : Heap) (a : Nat) (v : ℚ) : Heap × Nat :=
  let (h1, b) := Scalar.create h v
  op_add h1 a b

/-- Operator `operator+(double v, shared_ptr<Scalar> b)`. -/
def op_add_ds (h : Heap) (v : ℚ) (b : Nat) : Heap × Nat :=
  let (h1, a) := Scalar.create h v
  op_add h1 b a

/-- Operator `operator*(shared_ptr<Scalar> a, shared_ptr<Scalar> b)`. -/
def op_mul (h : Heap) (a b : Nat) : Heap × Nat :=
  let (h1, o) := Scalar.create h (Scalar.getData h a * Scalar.getData h b)
  let h2 := pushPrev h1 o a
  let h3 := pushPrev h2 o b
  (setBackward h3 o (Closure.mul a b o), o)

/-- Operator `operator*(shared_ptr<Scalar> a, double v)`. -/
def op_mul_sd (h : Heap) (a : Nat) (v : ℚ) : Heap × Nat :=
  let (h1, b) := Scalar.create h v
  op_mul h1 a b

/-- Operator `operator*(double v, shared_ptr<Scalar> b)`. -/
def op_mul_ds (h : Heap) (v : ℚ) (b : Nat) : Heap × Nat :=
  let (h1, a) := Scalar.create h v
  op_mul h1 b a

/-- Operator `operator-(shared_ptr<Scalar> a)`. -/
def op_neg (h : Heap) (a : Nat) : Heap × Nat :=
  let (h1, b) := Scalar.create h (-1)
  op_mul h1 a b

/-- Operator `operator-(shared_ptr<Scalar> a, shared_ptr<Scalar> b)`: `a + (-b)`. -/
def op_sub (h : Heap) (a b : Nat) : Heap × Nat :=
  let (h1, nb) := op_neg h b
  op_add h1 a nb

/-- Operator `operator-(double v, shared_ptr<Scalar> a)`. -/
def op_sub_ds (h : Heap) (v : ℚ) (a : Nat) : Heap × Nat :=
  let (h1, b) := Scalar.create h v
  op_sub h1 b a

/-- Function `pow(shared_ptr<Scalar> a, double v)`, for an integer exponent.
`std::pow(x, v)` is `x ^ v` in `ℚ`; for a zero base and a negative exponent,
where the C++ code yields an infinity, `ℚ` yields 0. -/
def pow (h : Heap) (a : Nat) (v : ℤ) : Heap × Nat :=
  let (h1, o) := Scalar.create h (Scalar.getData h a ^ v)
  let h2 := pushPrev h1 o a
  (setBackward h2 o (Closure.pow a o v), o)

/-- Operator `operator/(shared_ptr<Scalar> a, shared_ptr<Scalar> b)`: `a * pow(b, -1.0)`. -/
def op_div (h : Heap) (a b : Nat) : Heap × Nat :=
  let (h1, ib) := pow h b (-1)
  op_mul h1 a ib

/-- Operator `operator/(shared_ptr<Scalar> a, double v)`. -/
def op_div_sd (h : Heap) (a : Nat) (v : ℚ) : Heap × Nat :=
  let (h1, b) := Scalar.create h v
  op_div h1 a b

/-- Operator `operator/(double v, shared_ptr<Scalar> b)`. -/
def op_div_ds (h : Heap) (v : ℚ) (b : Nat) : Heap × Nat :=
  let (h1, a) := Scalar.create h v
  op_div h1 a b

/-- Method `Scalar::relu()`, called on the object `self`. -/
def Scalar.relu (h : Heap) (self : Nat) : Heap × Nat :=
  let v : ℚ := if Scalar.getData h self ≤ 0 then 0 else Scalar.getData h self
  let (h1, o) := Scalar.create h v
  let h2 := pushPrev h1 o self
  (setBackward h2 o (Closure.relu self o), o)

/-! ## Backward pass -/

/-- Calling a stored lambda: the body of each `op_backward`, statement by
statement. -/
def Closure.call (h : Heap) : Closure → Heap
  | Closure.noop => h
  | Closure.add o a b =>
      let h1 := addGrad h a (Scalar.getGrad h o)
      addGrad h1 b (Scalar.getGrad h1 o)
  | Closure.mul a b o =>
      let h1 := addGrad h a (Scalar.getData h b * Scalar.getGrad h o)
      addGrad h1 b (Scalar.getData h1 a * Scalar.getGrad h1 o)
  | Closure.pow a o v =>
      addGrad h a ((v : ℚ) * Scalar.getData h a ^ (v - 1) * Scalar.getGrad h o)
  | Closure.relu a o =>
      addGrad h a (Scalar.getGrad h o * (if Scalar.getData h o > 0 then 1 else 0))

/-- The range-for loop of `topo_sort` over `v->getPrev()`, `f` being the
recursive call; the state is `(nodes, visited)`. -/
def forPrev (f : Nat → List Nat × List Nat → Option (List Nat × List Nat)) :
    List Nat → List Nat × List Nat → Option (List Nat × List Nat)
  | [], st => some st
  | p :: ps, st =>
      match f p st with
      | none => none
      | some st1 => forPrev f ps st1

/-- Function `topo_sort(v, nodes, visited)`; the first argument bounds the
depth of the recursion. -/
def topo_sort (h : Heap) : Nat → Nat → List Nat × List Nat → Option (List Nat × List Nat)
  | 0, _, _ => none
  | fuel + 1, v, (nodes, visited) =>
      if v ∈ visited then some (nodes, visited)
      else
        match forPrev (topo_sort h fuel) (Scalar.getPrev h v) (nodes, v :: visited) with
        | none => none
        | some (nodes1, visited1) => some (nodes1 ++ [v], visited1)

/-- The loop `for (auto n : nodes) n->_backward();`. -/
def runBackward (h : Heap) (nodes : List Nat) : Heap :=
  nodes.foldl (fun hh n => Closure.call hh (hh.cell n)._backward) h

/-- Method `Scalar::backward()`, called on the object `self`. -/
def Scalar.backward (fuel : Nat) (h : Heap) (self : Nat) : Option Heap :=
  match topo_sort h fuel self ([], []) with
  | none => none
  | some (nodes, _) =>
      let h1 := Scalar.setGrad h self 1
      some (runBackward h1 nodes.reverse)

/-! ## Graphs: reachability, acyclicity, orders -/

/-- Node `n` can be reached from `r` by following predecessor lists. -/
def Reachable (h : Heap) (r n : Nat) : Prop :=
  Relation.ReflTransGen (fun x y => y ∈ Scalar.getPrev h x) r n

/-- The predecessor relation of `h` is acyclic: `rank` strictly decreases
along every predecessor edge. -/
def IsDag (h : Heap) (rank : Nat → Nat) : Prop :=
  ∀ n p, p ∈ Scalar.getPrev h n → rank p < rank n

/-- In the sequence `L` every predecessor of an element stands before it. -/
def PredsBefore (h : Heap) (L : List Nat) : Prop :=
  ∀ l1 n l2, L = l1 ++ n :: l2 → ∀ p ∈ Scalar.getPrev h n, p ∈ l1

/-- In the sequence `L` every predecessor of an element stands after it. -/
def PredsAfter (h : Heap) (L : List Nat) : Prop :=
  ∀ l1 n l2, L = l1 ++ n :: l2 → ∀ p ∈ Scalar.getPrev h n, p ∈ l2

/-- What one call of `topo_sort` (or one run of its loop) from the nodes `S`
does to a state `(nodes, visited)`: it appends the nodes reachable from `S`
that are not yet in `nodes`, and marks exactly those. -/
def Extends (h : Heap) (S : Nat → Prop) (nodes visited : List Nat)
    (res : Option (List Nat × List Nat)) : Prop :=
  ∃ new visited1, res = some (nodes ++ new, visited1) ∧
    (∀ x, x ∈ visited1 ↔ x ∈ visited ∨ x ∈ new) ∧
    (∀ x, x ∈ new ↔ (∃ s, S s ∧ Reachable h s x) ∧ x ∉ nodes) ∧
    (nodes ++ new).Nodup ∧ PredsBefore h (nodes ++ new)

/-! ## Gradients: what a graph built by the operations looks like, and the chain rule -/

/-- Node `n` is a leaf or the output of one of the four primitive operations:
a leaf has no predecessor and the default lambda; the lambda of an output
captures the node itself as `o` and its predecessors as operands. -/
def BuiltNode (h : Heap) (n : Nat) : Prop :=
  match (h.cell n)._backward with
  | Closure.noop => (h.cell n).prev = []
  | Closure.add o a b => o = n ∧ (h.cell n).prev = [a, b]
  | Closure.mul a b o => o = n ∧ (h.cell n).prev = [a, b]
  | Closure.pow a o _ => o = n ∧ (h.cell n).prev = [a]
  | Closure.relu a o => o = n ∧ (h.cell n).prev = [a]

/-- Node `x` is a leaf: no predecessor, default lambda. -/
def IsLeaf (h : Heap) (x : Nat) : Prop :=
  (h.cell x).prev = [] ∧ (h.cell x)._backward = Closure.noop

/-- Heap `h1` differs from `h` in gradients only. -/
def SameGraph (h h1 : Heap) : Prop :=
  ∀ q, (h1.cell q).data = (h.cell q).data ∧ (h1.cell q).prev = (h.cell q).prev ∧
    (h1.cell q)._backward = (h.cell q)._backward

/-- The predecessor edges of node `n` with their local partial derivatives, one
entry per element of the predecessor list: `add` gives 1 for each operand,
`multiply(a, b)` gives `b.value` for `a` and `a.value` for `b`, `pow(a, k)`
gives `k * a.value ^ (k - 1)`, `relu(a)` gives 1 if the output value is
positive and 0 otherwise. -/
def localPartials (h : Heap) (n : Nat) : List (Nat × ℚ) :=
  match (h.cell n)._backward, (h.cell n).prev with
  | Closure.add _ _ _, [a, b] => [(a, 1), (b, 1)]
  | Closure.mul _ _ _, [a, b] => [(a, Scalar.getData h b), (b, Scalar.getData h a)]
  | Closure.pow _ _ k, [a] => [(a, (k : ℚ) * Scalar.getData h a ^ (k - 1))]
  | Closure.relu _ _, [a] => [(a, if Scalar.getData h n > 0 then 1 else 0)]
  | _, _ => []

/-- The sum of the local partials of the edges from `n` to `q`. -/
def edgeWeight (h : Heap) (n q : Nat) : ℚ :=
  ((localPartials h n).map (fun e => if e.1 = q then e.2 else 0)).sum

/-- All predecessor paths from `r` to `n` with at most `k` edges, each given
by the list of the local partials of its edges; an edge that occurs twice in
a predecessor list gives two paths. -/
def pathsTo (h : Heap) (n : Nat) : Nat → Nat → List (List ℚ)
  | 0, r => if r = n then [[]] else []
  | k + 1, r => (if r = n then [[]] else []) ++
      (localPartials h r).flatMap (fun e => (pathsTo h n k e.1).map (fun w => e.2 :: w))

/-- The chain rule: the sum over the paths from `r` to `n` (of at most `k`
edges) of the product of the local partials along the path. -/
def chainRule (h : Heap) (k r n : Nat) : ℚ :=
  ((pathsTo h n k r).map List.prod).sum

/-- Invariant of the heaps the operations build: every node is a leaf or the
output of a primitive operation, predecessors are older than the node, and the
identities not handed out yet hold nothing. -/
def WellFormed (h : Heap) : Prop :=
  ∀ n, BuiltNode h n ∧ (∀ p ∈ Scalar.getPrev h n, p < n) ∧ (h.next ≤ n → IsLeaf h n)

/-! ## Example graphs -/

/-- The graph `x = create(3); y = x * x`. -/
def squareGraph : Heap × Nat × Nat :=
  let (h, x) := Scalar.create Heap.empty 3
  let (h, y) := op_mul h x x
  (h, x, y)

/-- The graph `x = create(3); y = x->relu(); r = y->relu()`. -/
def chainGraph : Heap × Nat × Nat :=
  let (h, x) := Scalar.create Heap.empty 3
  let (h, y) := Scalar.relu h x
  let (h, r) := Scalar.relu h y
  (h, x, r)

/-- The graph `a = create(2); b = create(-3); m = a * b; s = m + a;
p = pow(s, 2); r = p->relu()`, in which `a` is reached by two paths. -/
def mixedGraph : Heap × Nat × Nat × Nat :=
  let (h, a) := Scalar.create Heap.empty 2
  let (h, b) := Scalar.create h (-3)
  let (h, m) := op_mul h a b
  let (h, s) := op_add h m a
  let (h, p) := pow h s 2
  let (h, r) := Scalar.relu h p
  (h, a, b, r)

/-- The graph built by `main` of `example.cpp` up to the call `g->backward()`,
with the pointers `a`, `b` and `g`. The operands of each operator are
evaluated from left to right (C++ leaves the order open; it decides only which
identity a temporary gets). -/
def exampleGraph : Heap × Nat × Nat × Nat :=
  let h := Heap.empty
  let (h, a) := Scalar.create h (-4)
  let (h, b) := Scalar.create h 2
  -- c = a + b
  let (h, c) := op_add h a b
  -- d = a * b + b * b * b
  let (h, t1) := op_mul h a b
  let (h, t2) := op_mul h b b
  let (h, t3) := op_mul h t2 b
  let (h, d) := op_add h t1 t3
  -- c = c + c + 1
  let (h, t4) := op_add h c c
  let (h, c) := op_add_sd h t4 1
  -- c = c + 1 + c + (-a)
  let (h, t5) := op_add_sd h c 1
  let (h, t6) := op_add h t5 c
  let (h, t7) := op_neg h a
  let (h, c) := op_add h t6 t7
  -- d = d + d * 2 + (b + a)->relu()
  let (h, t8) := op_mul_sd h d 2
  let (h, t9) := op_add h d t8
  let (h, t10) := op_add h b a
  let (h, t11) := Scalar.relu h t10
  let (h, d) := op_add h t9 t11
  -- d = d + 3 * d + (b - a)->relu()
  let (h, t12) := op_mul_ds h 3 d
  let (h, t13) := op_add h d t12
  let (h, t14) := op_sub h b a
  let (h, t15) := Scalar.relu h t14
  let (h, d) := op_add h t13 t15
  -- e = c - d; f = e * e; g = f / 2.0; g = g + 10.0 / f
  let (h, e) := op_sub h c d
  let (h, f) := op_mul h e e
  let (h, g) := op_div_sd h f 2
  let (h, t16) := op_div_ds h 10 f
  let (h, g) := op_add h g t16
  (h, a, b, g)

/-! ## The client's calls and the states they reach -/

/-- The calls that construct a node: `Scalar::create`, the operators in their
node and mixed scalar forms, `pow` and `relu`, each with its arguments. -/
inductive Build where
  | create (v : ℚ) : Build
  | add (a b : Nat) : Build
  | add_sd (a : Nat) (v : ℚ) : Build
  | add_ds (v : ℚ) (b : Nat) : Build
  | mul (a b : Nat) : Build
  | mul_sd (a : Nat) (v : ℚ) : Build
  | mul_ds (v : ℚ) (b : Nat) : Build
  | neg (a : Nat) : Build
  | sub (a b : Nat) : Build
  | sub_ds (v : ℚ) (a : Nat) : Build
  | pow (a : Nat) (v : ℤ) : Build
  | div (a b : Nat) : Build
  | div_sd (a : Nat) (v : ℚ) : Build
  | div_ds (v : ℚ) (b : Nat) : Build
  | relu (a : Nat) : Build

/-- Running a constructing call: the new heap and the pointer returned. -/
def Build.run (h : Heap) : Build → Heap × Nat
  | Build.create v => Scalar.create h v
  | Build.add a b => op_add h a b
  | Build.add_sd a v => op_add_sd h a v
  | Build.add_ds v b => op_add_ds h v b
  | Build.mul a b => op_mul h a b
  | Build.mul_sd a v => op_mul_sd h a v
  | Build.mul_ds v b => op_mul_ds h v b
  | Build.neg a => op_neg h a
  | Build.sub a b => op_sub h a b
  | Build.sub_ds v a => op_sub_ds h v a
  | Build.pow a v => MiniGrad.pow h a v
  | Build.div a b => op_div h a b
  | Build.div_sd a v => op_div_sd h a v
  | Build.div_ds v b => op_div_ds h v b
  | Build.relu a => Scalar.relu h a

/-- The pointers a constructing call is given. -/
def Build.args : Build → List Nat
  | Build.create _ => []
  | Build.add a b => [a, b]
  | Build.add_sd a _ => [a]
  | Build.add_ds _ b => [b]
  | Build.mul a b => [a, b]
  | Build.mul_sd a _ => [a]
  | Build.mul_ds _ b => [b]
  | Build.neg a => [a]
  | Build.sub a b => [a, b]
  | Build.sub_ds _ a => [a]
  | Build.pow a _ => [a]
  | Build.div a b => [a, b]
  | Build.div_sd a _ => [a]
  | Build.div_ds _ b => [b]
  | Build.relu a => [a]

/-- The states of the heap a client can reach: it starts with no object and
makes constructing calls, `setData`, `setGrad` and `backward` on pointers to
objects that exist. -/
inductive ReachableState : Heap → Prop where
  | empty : ReachableState Heap.empty
  | build (h : Heap) (c : Build) : ReachableState h → (∀ p ∈ c.args, p < h.next) →
      ReachableState (c.run h).1
  | setData (h : Heap) (p : Nat) (d : ℚ) : ReachableState h → p < h.next →
      ReachableState (Scalar.setData h p d)
  | setGrad (h : Heap) (p : Nat) (g : ℚ) : ReachableState h → p < h.next →
      ReachableState (Scalar.setGrad h p g)
  | backward (h : Heap) (fuel root : Nat) (h1 : Heap) : ReachableState h → root < h.next →
      Scalar.backward fuel h root = some h1 → ReachableState h1

/-! ## The sorter as the specification words it -/

/-- The sorter of the specification: visit the predecessors of `v`, skipping
any that is already in the visited set, then add `v` to the output sequence
and mark it visited. The first argument bounds the depth of the recursion. -/
def topo_sort_postmark (h : Heap) : Nat → Nat → List Nat × List Nat →
    Option (List Nat × List Nat)
  | 0, _, _ => none
  | fuel + 1, v, st =>
      match forPrev (fun p st1 => if p ∈ st1.2 then some st1 else topo_sort_postmark h fuel p st1)
          (Scalar.getPrev h v) st with
      | none => none
      | some (nodes1, visited1) => some (nodes1 ++ [v], v :: visited1)

/-! ## Resetting gradients -/

/-- Method `Module::zero_grad()` of `nn.hpp`, for the parameter list `params`:
`for (auto p : params()) p->setGrad(0.0);`. -/
def zero_grad (h : Heap) (params : List Nat) : Heap :=
  params.foldl (fun hh p => Scalar.setGrad hh p 0) h

/-! ## More example heaps -/

/-- The heap holding the two leaves `create(2)` and `create(5)`, at 0 and 1. -/
def twoLeaves : Heap :=
  (Scalar.create (Scalar.create Heap.empty 2).1 5).1

/-- The heap after `x = create(3); y = x * 2; x->setData(4); y->backward()`
(`x` at 0, the constant at 1, `y` at 2), if the pass returns within a recursion
depth of 3. -/
def clientState : Option Heap :=
  Scalar.backward 3
    (Scalar.setData ((Build.mul_sd 0 2).run ((Build.create 3).run Heap.empty).1).1 0 4) 2

/-! ## The topological sorter -/

theorem Reachable.rank_le {h : Heap} {rank : Nat → Nat} (hd : IsDag h rank) {r n : Nat}
    (hr : Reachable h r n) : rank n ≤ rank r := by
  induction hr with
  | refl => exact le_refl _
  | tail _ hbc ih => exact le_trans (le_of_lt (hd _ _ hbc)) ih

theorem Reachable.of_prev {h : Heap} {v p x : Nat} (hp : p ∈ Scalar.getPrev h v)
    (hx : Reachable h p x) : Reachable h v x :=
  Relation.ReflTransGen.head hp hx

theorem Reachable.cases_prev {h : Heap} {v x : Nat} (hx : Reachable h v x) :
    x = v ∨ ∃ p ∈ Scalar.getPrev h v, Reachable h p x := by
  rcases Relation.ReflTransGen.cases_head hx with h1 | ⟨p, hp, hpx⟩
  · exact Or.inl h1.symm
  · exact Or.inr ⟨p, hp, hpx⟩

theorem PredsBefore.mem_prev {h : Heap} {L : List Nat} (hL : PredsBefore h L) {n p : Nat}
    (hn : n ∈ L) (hp : p ∈ Scalar.getPrev h n) : p ∈ L := by
  obtain ⟨l1, l2, rfl⟩ := List.append_of_mem hn
  exact List.mem_append_left _ (hL l1 n l2 rfl p hp)

theorem PredsBefore.closed {h : Heap} {L : List Nat} (hL : PredsBefore h L) {n x : Nat}
    (hn : n ∈ L) (hx : Reachable h n x) : x ∈ L := by
  induction hx with
  | refl => exact hn
  | tail _ hbc ih => exact hL.mem_prev ih hbc

theorem PredsBefore.snoc {h : Heap} {L : List Nat} (hL : PredsBefore h L) {v : Nat}
    (hv : ∀ p ∈ Scalar.getPrev h v, p ∈ L) : PredsBefore h (L ++ [v]) := by
  intro l1 n l2 heq p hp
  rcases List.eq_nil_or_concat l2 with rfl | ⟨l2', z, rfl⟩
  · have h1 : L ++ [v] = l1 ++ [n] := heq
    have h2 := List.append_inj' h1 rfl
    obtain ⟨h3, h4⟩ := h2
    simp only [List.cons.injEq, and_true] at h4
    subst h3; subst h4
    exact hv p hp
  · have h1 : L ++ [v] = (l1 ++ n :: l2') ++ [z] := by simpa using heq
    have h2 := List.append_inj' h1 rfl
    exact hL l1 n l2' h2.1 p hp

theorem PredsBefore.nil (h : Heap) : PredsBefore h [] := by
  intro l1 n l2 heq
  simp at heq

theorem PredsBefore.reverse {h : Heap} {L : List Nat} (hL : PredsBefore h L) :
    PredsAfter h L.reverse := by
  intro l1 n l2 heq p hp
  have h1 : L = l2.reverse ++ n :: l1.reverse := by
    have := congrArg List.reverse heq
    simpa using this
  exact List.mem_reverse.mp (hL _ _ _ h1 p hp)

theorem PredsAfter.head {h : Heap} {n : Nat} {L : List Nat} (hL : PredsAfter h (n :: L)) :
    ∀ p ∈ Scalar.getPrev h n, p ∈ L :=
  hL [] n L rfl

theorem PredsAfter.tail {h : Heap} {n : Nat} {L : List Nat} (hL : PredsAfter h (n :: L)) :
    PredsAfter h L := by
  intro l1 m l2 heq p hp
  exact hL (n :: l1) m l2 (by simp [heq]) p hp

theorem forPrev_spec (h : Heap)
    (f : Nat → List Nat × List Nat → Option (List Nat × List Nat)) (P : Nat → Prop)
    (hf : ∀ v nodes visited, P v →
      (∀ d, Reachable h v d → d ∈ visited → d ∈ nodes) →
      nodes.Nodup → PredsBefore h nodes → (∀ x ∈ nodes, x ∈ visited) →
      Extends h (fun s => s = v) nodes visited (f v (nodes, visited))) :
    ∀ (ps : List Nat) (nodes visited : List Nat), (∀ p ∈ ps, P p) →
      (∀ p ∈ ps, ∀ d, Reachable h p d → d ∈ visited → d ∈ nodes) →
      nodes.Nodup → PredsBefore h nodes → (∀ x ∈ nodes, x ∈ visited) →
      Extends h (fun s => s ∈ ps) nodes visited (forPrev f ps (nodes, visited)) := by
  intro ps
  induction ps with
  | nil =>
    intro nodes visited _ _ hnd hpb _
    refine ⟨[], visited, by simp [forPrev], by simp, by simp, by simpa using hnd, by simpa using hpb⟩
  | cons p ps ih =>
    intro nodes visited hP hvis hnd hpb hsub
    obtain ⟨new1, vis1, hres1, hv1, hn1, hnd1, hpb1⟩ :=
      hf p nodes visited (hP p (List.mem_cons_self _ _)) (hvis p (List.mem_cons_self _ _))
        hnd hpb hsub
    have hvis2 : ∀ q ∈ ps, ∀ d, Reachable h q d → d ∈ vis1 → d ∈ nodes ++ new1 := by
      intro q hq d hd hdv
      rcases (hv1 d).1 hdv with h1 | h1
      · exact List.mem_append_left _ (hvis q (List.mem_cons_of_mem _ hq) d hd h1)
      · exact List.mem_append_right _ h1
    have hsub2 : ∀ x ∈ nodes ++ new1, x ∈ vis1 := by
      intro x hx
      rcases List.mem_append.1 hx with h1 | h1
      · exact (hv1 x).2 (Or.inl (hsub x h1))
      · exact (hv1 x).2 (Or.inr h1)
    obtain ⟨new2, vis2, hres2, hv2, hn2, hnd2, hpb2⟩ :=
      ih (nodes ++ new1) vis1 (fun q hq => hP q (List.mem_cons_of_mem _ hq)) hvis2 hnd1 hpb1 hsub2
    refine ⟨new1 ++ new2, vis2, ?_, ?_, ?_, ?_, ?_⟩
    · simp only [forPrev, hres1, hres2, List.append_assoc]
    · intro x
      rw [hv2, hv1, List.mem_append]
      tauto
    · intro x
      rw [List.mem_append, hn1, hn2]
      constructor
      · rintro (⟨⟨s, rfl, hs⟩, hx⟩ | ⟨⟨s, hs1, hs⟩, hx⟩)
        · exact ⟨⟨s, List.mem_cons_self _ _, hs⟩, hx⟩
        · exact ⟨⟨s, List.mem_cons_of_mem _ hs1, hs⟩, fun hc => hx (List.mem_append_left _ hc)⟩
      · rintro ⟨⟨s, hs1, hs⟩, hx⟩
        by_cases hx1 : x ∈ new1
        · exact Or.inl ((hn1 x).1 hx1)
        · rcases List.mem_cons.1 hs1 with rfl | hs2
          · exact Or.inl ⟨⟨s, rfl, hs⟩, hx⟩
          · refine Or.inr ⟨⟨s, hs2, hs⟩, ?_⟩
            intro hc
            rcases List.mem_append.1 hc with h1 | h1
            · exact hx h1
            · exact hx1 h1
    · simpa [List.append_assoc] using hnd2
    · simpa [List.append_assoc] using hpb2

theorem topo_sort_spec (h : Heap) (rank : Nat → Nat) (hd : IsDag h rank) :
    ∀ (fuel v : Nat) (nodes visited : List Nat), rank v < fuel →
      (∀ d, Reachable h v d → d ∈ visited → d ∈ nodes) →
      nodes.Nodup → PredsBefore h nodes → (∀ x ∈ nodes, x ∈ visited) →
      Extends h (fun s => s = v) nodes visited (topo_sort h fuel v (nodes, visited)) := by
  intro fuel
  induction fuel with
  | zero => intro v _ _ hlt; exact absurd hlt (Nat.not_lt_zero _)
  | succ fuel ih =>
    intro v nodes visited hlt hvis hnd hpb hsub
    by_cases hv : v ∈ visited
    · have hvn : v ∈ nodes := hvis v Relation.ReflTransGen.refl hv
      refine ⟨[], visited, by simp [topo_sort, hv], by simp, ?_, by simpa using hnd,
        by simpa using hpb⟩
      intro x
      simp only [List.not_mem_nil, false_iff, not_and, not_not]
      rintro ⟨s, rfl, hs⟩
      exact hpb.closed hvn hs
    · have hvn : v ∉ nodes := fun hc => hv (hsub v hc)
      have hloop := forPrev_spec h (topo_sort h fuel) (fun p => rank p < fuel)
        (fun v nodes visited hP => ih v nodes visited hP)
        (Scalar.getPrev h v) nodes (v :: visited)
        (fun p hp => lt_of_lt_of_le (hd v p hp) (Nat.lt_succ_iff.mp hlt))
        (by
          intro p hp d hpd hdv
          rcases List.mem_cons.1 hdv with rfl | h1
          · exact absurd (hpd.rank_le hd) (not_le.mpr (hd _ p hp))
          · exact hvis d (hpd.of_prev hp) h1)
        hnd hpb (fun x hx => List.mem_cons_of_mem _ (hsub x hx))
      obtain ⟨new, vis1, hres, hv1, hn1, hnd1, hpb1⟩ := hloop
      have hvnew : v ∉ new := by
        intro hc
        obtain ⟨⟨s, hs1, hs⟩, _⟩ := (hn1 v).1 hc
        exact absurd (hs.rank_le hd) (not_le.mpr (hd _ s hs1))
      refine ⟨new ++ [v], vis1, ?_, ?_, ?_, ?_, ?_⟩
      · simp only [topo_sort, hv, if_false, hres, List.append_assoc]
      · intro x
        rw [hv1, List.mem_append, List.mem_cons, List.mem_singleton]
        tauto
      · intro x
        rw [List.mem_append, List.mem_singleton, hn1]
        constructor
        · rintro (⟨⟨s, hs1, hs⟩, hx⟩ | rfl)
          · exact ⟨⟨v, rfl, hs.of_prev hs1⟩, hx⟩
          · exact ⟨⟨x, rfl, Relation.ReflTransGen.refl⟩, hvn⟩
        · rintro ⟨⟨s, rfl, hs⟩, hx⟩
          rcases hs.cases_prev with h1 | ⟨p, hp, hpx⟩
          · exact Or.inr h1
          · exact Or.inl ⟨⟨p, hp, hpx⟩, hx⟩
      · rw [← List.append_assoc]
        refine List.Nodup.append hnd1 (List.nodup_singleton v) ?_
        intro x hx hxv
        rw [List.mem_singleton] at hxv
        subst hxv
        rcases List.mem_append.1 hx with h1 | h1
        · exact hvn h1
        · exact hvnew h1
      · rw [← List.append_assoc]
        refine hpb1.snoc ?_
        intro p hp
        by_cases hpn : p ∈ nodes
        · exact List.mem_append_left _ hpn
        · exact List.mem_append_right _ ((hn1 p).2 ⟨⟨p, hp, Relation.ReflTransGen.refl⟩, hpn⟩)

theorem topo_sort_last (h : Heap) (fuel v : Nat) (nodes visited nodes1 visited1 : List Nat)
    (hv : v ∉ visited)
    (hres : topo_sort h fuel v (nodes, visited) = some (nodes1, visited1)) :
    ∃ l, nodes1 = l ++ [v] := by
  cases fuel with
  | zero => simp [topo_sort] at hres
  | succ fuel =>
    simp only [topo_sort, hv, if_false] at hres
    split at hres
    · simp at hres
    · simp only [Option.some.injEq, Prod.mk.injEq] at hres
      exact ⟨_, hres.1.symm⟩

theorem topo_sort_root (h : Heap) (rank : Nat → Nat) (hd : IsDag h rank) (root fuel : Nat)
    (hfuel : rank root < fuel) :
    ∃ nodes visited, topo_sort h fuel root ([], []) = some (nodes, visited) ∧
      nodes.Nodup ∧ PredsBefore h nodes ∧ (∀ n, n ∈ nodes ↔ Reachable h root n) ∧
      ∃ l, nodes = l ++ [root] := by
  obtain ⟨new, vis1, hres, _, hn, hnd, hpb⟩ :=
    topo_sort_spec h rank hd fuel root [] [] hfuel (by simp) List.nodup_nil
      (PredsBefore.nil h) (by simp)
  simp only [List.nil_append] at hres hnd hpb
  refine ⟨new, vis1, hres, hnd, hpb, ?_, topo_sort_last h fuel root [] [] new vis1 (by simp) hres⟩
  intro n
  rw [hn]
  simp

theorem getElem?_split {L : List Nat} {i n : Nat} (hi : L[i]? = some n) :
    ∃ l1 l2, L = l1 ++ n :: l2 ∧ l1.length = i := by
  obtain ⟨hlt, hget⟩ := List.getElem?_eq_some.1 hi
  refine ⟨L.take i, L.drop (i + 1), ?_, by simp [List.length_take, le_of_lt hlt]⟩
  rw [← hget]
  simp

theorem mem_split_index {l1 : List Nat} (n : Nat) (l2 : List Nat) {p : Nat} (hp : p ∈ l1) :
    ∃ j, j < l1.length ∧ (l1 ++ n :: l2)[j]? = some p := by
  obtain ⟨j, hj⟩ := List.mem_iff_getElem?.1 hp
  have hlt : j < l1.length := (List.getElem?_eq_some.1 hj).1
  exact ⟨j, hlt, by rw [List.getElem?_append_left hlt]; exact hj⟩

theorem nodup_index_unique {L : List Nat} (hL : L.Nodup) {i j n : Nat}
    (hi : L[i]? = some n) (hj : L[j]? = some n) : i = j := by
  obtain ⟨hi1, hi2⟩ := List.getElem?_eq_some.1 hi
  obtain ⟨hj1, hj2⟩ := List.getElem?_eq_some.1 hj
  exact (hL.getElem_inj_iff).1 (hi2.trans hj2.symm)

/-! ## Heap updates -/

theorem getGrad_addGrad (h : Heap) (p q : Nat) (x : ℚ) :
    Scalar.getGrad (addGrad h p x) q = if q = p then Scalar.getGrad h p + x else Scalar.getGrad h q := by
  unfold addGrad Scalar.setGrad Heap.write Scalar.getGrad
  by_cases hq : q = p <;> simp [hq]

theorem getData_addGrad (h : Heap) (p q : Nat) (x : ℚ) :
    Scalar.getData (addGrad h p x) q = Scalar.getData h q := by
  unfold addGrad Scalar.setGrad Heap.write Scalar.getData
  by_cases hq : q = p <;> simp [hq]

theorem getGrad_setGrad (h : Heap) (p q : Nat) (x : ℚ) :
    Scalar.getGrad (Scalar.setGrad h p x) q = if q = p then x else Scalar.getGrad h q := by
  unfold Scalar.setGrad Heap.write Scalar.getGrad
  by_cases hq : q = p <;> simp [hq]

theorem SameGraph.refl (h : Heap) : SameGraph h h := fun _ => ⟨rfl, rfl, rfl⟩

theorem SameGraph.trans {h h1 h2 : Heap} (h01 : SameGraph h h1) (h12 : SameGraph h1 h2) :
    SameGraph h h2 := fun q =>
  ⟨(h12 q).1.trans (h01 q).1, (h12 q).2.1.trans (h01 q).2.1, (h12 q).2.2.trans (h01 q).2.2⟩

theorem SameGraph.setGrad (h : Heap) (p : Nat) (x : ℚ) : SameGraph h (Scalar.setGrad h p x) := by
  intro q
  unfold Scalar.setGrad Heap.write
  by_cases hq : q = p <;> simp [hq]

theorem SameGraph.addGrad (h : Heap) (p : Nat) (x : ℚ) : SameGraph h (addGrad h p x) :=
  SameGraph.setGrad h p _

theorem SameGraph.call (h : Heap) (c : Closure) : SameGraph h (Closure.call h c) := by
  cases c with
  | noop => exact SameGraph.refl h
  | add o a b => exact (SameGraph.addGrad h a _).trans (SameGraph.addGrad _ b _)
  | mul a b o => exact (SameGraph.addGrad h a _).trans (SameGraph.addGrad _ b _)
  | pow a o v => exact SameGraph.addGrad h a _
  | relu a o => exact SameGraph.addGrad h a _

theorem SameGraph.getPrev {h h1 : Heap} (hs : SameGraph h h1) (n : Nat) :
    Scalar.getPrev h1 n = Scalar.getPrev h n := (hs n).2.1

theorem SameGraph.getData {h h1 : Heap} (hs : SameGraph h h1) (n : Nat) :
    Scalar.getData h1 n = Scalar.getData h n := (hs n).1

theorem SameGraph.localPartials {h h1 : Heap} (hs : SameGraph h h1) (n : Nat) :
    localPartials h1 n = localPartials h n := by
  unfold MiniGrad.localPartials Scalar.getData
  rw [(hs n).2.1, (hs n).2.2]
  simp only [(hs _).1]

theorem SameGraph.edgeWeight {h h1 : Heap} (hs : SameGraph h h1) (n q : Nat) :
    edgeWeight h1 n q = edgeWeight h n q := by
  unfold MiniGrad.edgeWeight
  rw [hs.localPartials]

theorem SameGraph.builtNode {h h1 : Heap} (hs : SameGraph h h1) {n : Nat} (hb : BuiltNode h n) :
    BuiltNode h1 n := by
  unfold BuiltNode at *
  rw [(hs n).2.1, (hs n).2.2]
  exact hb

theorem localPartials_fst_mem (h : Heap) (n : Nat) :
    ∀ e ∈ localPartials h n, e.1 ∈ Scalar.getPrev h n := by
  intro e he
  unfold localPartials at he
  unfold Scalar.getPrev
  split at he <;> rename_i heq1 heq2 <;> simp_all
  all_goals rcases he with rfl | rfl <;> simp

theorem edgeWeight_eq_zero (h : Heap) (n q : Nat) (hq : q ∉ Scalar.getPrev h n) :
    edgeWeight h n q = 0 := by
  unfold edgeWeight
  apply List.sum_eq_zero
  intro x hx
  obtain ⟨e, he, rfl⟩ := List.mem_map.1 hx
  have := localPartials_fst_mem h n e he
  have hne : e.1 ≠ q := fun hc => hq (hc ▸ this)
  simp [hne]

/-- Effect of running the lambda of a built node `n` that is not its own
predecessor: every gradient grows by the gradient of `n` times the weight of
the edges from `n` to it. -/
theorem getGrad_call (h : Heap) (n : Nat) (hb : BuiltNode h n)
    (hn : n ∉ Scalar.getPrev h n) (q : Nat) :
    Scalar.getGrad (Closure.call h (h.cell n)._backward) q =
      Scalar.getGrad h q + Scalar.getGrad h n * edgeWeight h n q := by
  unfold BuiltNode at hb
  unfold edgeWeight localPartials
  unfold Scalar.getPrev at hn
  cases hc : (h.cell n)._backward with
  | noop => simp [Closure.call]
  | add o a b =>
    rw [hc] at hb
    obtain ⟨rfl, hp⟩ := hb
    rw [hp] at hn
    have ha : o ≠ a := fun hh => hn (by simp [hh])
    have hb : o ≠ b := fun hh => hn (by simp [hh])
    simp only [hp, Closure.call, getGrad_addGrad, if_neg ha, List.map_cons, List.map_nil,
      List.sum_cons, List.sum_nil]
    by_cases hqa : q = a
    · by_cases hqb : q = b
      · simp_all [eq_comm]; ring
      · simp_all [eq_comm]
    · by_cases hqb : q = b
      · simp_all [eq_comm]
      · simp_all [eq_comm]
  | mul a b o =>
    rw [hc] at hb
    obtain ⟨rfl, hp⟩ := hb
    rw [hp] at hn
    have ha : o ≠ a := fun hh => hn (by simp [hh])
    have hb : o ≠ b := fun hh => hn (by simp [hh])
    simp only [hp, Closure.call, getGrad_addGrad, getData_addGrad, if_neg ha, List.map_cons,
      List.map_nil, List.sum_cons, List.sum_nil]
    by_cases hqa : q = a <;> by_cases hqb : q = b <;> by_cases hab : a = b <;>
      simp_all [eq_comm] <;> ring
  | pow a o v =>
    rw [hc] at hb
    obtain ⟨rfl, hp⟩ := hb
    rw [hp] at hn
    simp only [hp, Closure.call, getGrad_addGrad, List.map_cons, List.map_nil,
      List.sum_cons, List.sum_nil]
    by_cases hqa : q = a
    · simp_all [eq_comm]; ring
    · simp_all [eq_comm]
  | relu a o =>
    rw [hc] at hb
    obtain ⟨rfl, hp⟩ := hb
    rw [hp] at hn
    simp only [hp, Closure.call, getGrad_addGrad, List.map_cons, List.map_nil,
      List.sum_cons, List.sum_nil]
    by_cases hqa : q = a <;> simp_all [eq_comm]

/-! ## The loop of `backward` -/

theorem runBackward_nil (h : Heap) : runBackward h [] = h := rfl

theorem runBackward_cons (h : Heap) (n : Nat) (L : List Nat) :
    runBackward h (n :: L) = runBackward (Closure.call h (h.cell n)._backward) L := rfl

theorem SameGraph.runBackward (h : Heap) (L : List Nat) : SameGraph h (runBackward h L) := by
  induction L generalizing h with
  | nil => exact SameGraph.refl h
  | cons n L ih =>
    rw [runBackward_cons]
    exact (SameGraph.call h _).trans (ih _)

/-- One step of the loop, seen from the graph `h` the pass started on. -/
theorem getGrad_step {h hh : Heap} (hs : SameGraph h hh) (hb : ∀ n, BuiltNode h n)
    (hirr : ∀ n, n ∉ Scalar.getPrev h n) (n q : Nat) :
    Scalar.getGrad (Closure.call hh (hh.cell n)._backward) q =
      Scalar.getGrad hh q + Scalar.getGrad hh n * edgeWeight h n q := by
  rw [getGrad_call hh n (hs.builtNode (hb n)) (by rw [hs.getPrev]; exact hirr n), hs.edgeWeight]

/-- The loop leaves the gradient of `t` alone when no node it runs has `t` as a
predecessor. -/
theorem getGrad_runBackward_of_not_prev {h : Heap} (hb : ∀ n, BuiltNode h n)
    (hirr : ∀ n, n ∉ Scalar.getPrev h n) (t : Nat) :
    ∀ (L : List Nat) (hh : Heap), SameGraph h hh → (∀ m ∈ L, t ∉ Scalar.getPrev h m) →
      Scalar.getGrad (runBackward hh L) t = Scalar.getGrad hh t := by
  intro L
  induction L with
  | nil => intro hh _ _; rfl
  | cons n L ih =>
    intro hh hs hL
    rw [runBackward_cons, ih _ (hs.trans (SameGraph.call hh _))
      (fun m hm => hL m (List.mem_cons_of_mem _ hm)), getGrad_step hs hb hirr,
      edgeWeight_eq_zero h n t (hL n (List.mem_cons_self _ _))]
    ring

theorem sum_map_single (R : List Nat) (hR : R.Nodup) (a : Nat) (ha : a ∈ R) (c : ℚ)
    (F : Nat → ℚ) : (R.map (fun m => (if a = m then c else 0) * F m)).sum = c * F a := by
  induction R with
  | nil => simp at ha
  | cons x R ih =>
    rw [List.nodup_cons] at hR
    rw [List.map_cons, List.sum_cons]
    rcases List.mem_cons.1 ha with rfl | hmem
    · have hz : (R.map (fun m => (if a = m then c else 0) * F m)).sum = 0 := by
        apply List.sum_eq_zero
        intro y hy
        obtain ⟨m, hm, rfl⟩ := List.mem_map.1 hy
        have : a ≠ m := fun hc => hR.1 (hc ▸ hm)
        simp [this]
      rw [hz]; simp
    · have hne : a ≠ x := fun hc => hR.1 (hc ▸ hmem)
      rw [ih hR.2 hmem]; simp [hne]

/-- Summing the edge weights of `n` against `F` over a duplicate-free list that
contains every predecessor of `n` is summing over the edges of `n`. -/
theorem sum_edgeWeight (h : Heap) (n : Nat) (R : List Nat) (hR : R.Nodup)
    (hmem : ∀ p ∈ Scalar.getPrev h n, p ∈ R) (F : Nat → ℚ) :
    (R.map (fun m => edgeWeight h n m * F m)).sum =
      ((localPartials h n).map (fun e => e.2 * F e.1)).sum := by
  have hE : ∀ e ∈ localPartials h n, e.1 ∈ R :=
    fun e he => hmem _ (localPartials_fst_mem h n e he)
  unfold edgeWeight
  generalize localPartials h n = E at hE
  induction E with
  | nil => simp
  | cons e E ih =>
    have h1 := ih (fun e he => hE e (List.mem_cons_of_mem _ he))
    have h2 := sum_map_single R hR e.1 (hE e (List.mem_cons_self _ _)) e.2 F
    simp only [List.map_cons, List.sum_cons, add_mul, List.sum_map_add, h1, h2]

/-! ## The chain rule -/

theorem pathsTo_stable (h : Heap) (rank : Nat → Nat) (hd : IsDag h rank) (t : Nat) :
    ∀ (k1 k2 r : Nat), rank r ≤ k1 → rank r ≤ k2 → pathsTo h t k1 r = pathsTo h t k2 r := by
  have hnil : ∀ r, rank r = 0 → localPartials h r = [] := by
    intro r hr
    cases hlp : localPartials h r with
    | nil => rfl
    | cons e E =>
      have := hd r e.1 (localPartials_fst_mem h r e (by rw [hlp]; exact List.mem_cons_self _ _))
      omega
  have hedge : ∀ (k1 k2 r : Nat), (∀ e ∈ localPartials h r, pathsTo h t k1 e.1 = pathsTo h t k2 e.1) →
      pathsTo h t (k1 + 1) r = pathsTo h t (k2 + 1) r := by
    intro k1 k2 r hall
    simp only [pathsTo]
    congr 1
    apply List.flatMap_congr
    intro e he
    rw [hall e he]
  intro k1
  induction k1 with
  | zero =>
    intro k2 r h1 _
    have hr : rank r = 0 := Nat.le_zero.1 h1
    cases k2 with
    | zero => rfl
    | succ k2 => simp [pathsTo, hnil r hr]
  | succ k1 ih =>
    intro k2 r h1 h2
    cases k2 with
    | zero =>
      have hr : rank r = 0 := Nat.le_zero.1 h2
      simp [pathsTo, hnil r hr]
    | succ k2 =>
      apply hedge
      intro e he
      have := hd r e.1 (localPartials_fst_mem h r e he)
      exact ih k2 e.1 (by omega) (by omega)

theorem chainRule_stable (h : Heap) (rank : Nat → Nat) (hd : IsDag h rank) (t k1 k2 r : Nat)
    (h1 : rank r ≤ k1) (h2 : rank r ≤ k2) : chainRule h k1 r t = chainRule h k2 r t := by
  unfold chainRule
  rw [pathsTo_stable h rank hd t k1 k2 r h1 h2]

theorem chainRule_succ (h : Heap) (t k r : Nat) :
    chainRule h (k + 1) r t = (if r = t then 1 else 0) +
      ((localPartials h r).map (fun e => e.2 * chainRule h k e.1 t)).sum := by
  unfold chainRule
  simp only [pathsTo, List.map_append, List.sum_append]
  congr 1
  · by_cases hr : r = t <;> simp [hr]
  · induction localPartials h r with
    | nil => simp
    | cons e E ih =>
      simp only [List.flatMap_cons, List.map_append, List.sum_append, List.map_cons, List.sum_cons, ih]
      congr 1
      simp only [List.map_map]
      rw [← List.sum_map_mul_left]
      congr 1

/-- The chain rule seen from the root downwards, with the rank as bound. -/
theorem chainRule_unfold (h : Heap) (rank : Nat → Nat) (hd : IsDag h rank) (t r : Nat) :
    chainRule h (rank r) r t = (if r = t then 1 else 0) +
      ((localPartials h r).map (fun e => e.2 * chainRule h (rank e.1) e.1 t)).sum := by
  rw [chainRule_stable h rank hd t (rank r) (rank r + 1) r (le_refl _) (Nat.le_succ _),
    chainRule_succ]
  congr 2
  apply List.map_congr_left
  intro e he
  have := hd r e.1 (localPartials_fst_mem h r e he)
  rw [chainRule_stable h rank hd t (rank r) (rank e.1) e.1 (by omega) (le_refl _)]

/-- The invariant of the loop of `backward`: the gradients of the nodes still
to be run, each weighted by the derivative of that node with respect to `t`, add
up to the final gradient of `t` (to 0 if `t` is not among them). -/
theorem runBackward_potential {h : Heap} (rank : Nat → Nat) (hd : IsDag h rank)
    (hb : ∀ n, BuiltNode h n) (t : Nat) :
    ∀ (L : List Nat) (hh : Heap), SameGraph h hh → L.Nodup → PredsAfter h L →
      (L.map (fun m => Scalar.getGrad hh m * chainRule h (rank m) m t)).sum =
        if t ∈ L then Scalar.getGrad (runBackward hh L) t else 0 := by
  have hirr : ∀ n, n ∉ Scalar.getPrev h n := fun n hn => lt_irrefl _ (hd n n hn)
  intro L
  induction L with
  | nil => intro hh _ _ _; simp
  | cons n L ih =>
    intro hh hs hnd hpa
    rw [List.nodup_cons] at hnd
    have hs1 : SameGraph h (Closure.call hh (hh.cell n)._backward) :=
      hs.trans (SameGraph.call hh _)
    have hstep := ih (Closure.call hh (hh.cell n)._backward) hs1 hnd.2 hpa.tail
    have hsum : (L.map (fun m => Scalar.getGrad (Closure.call hh (hh.cell n)._backward) m *
          chainRule h (rank m) m t)).sum =
        (L.map (fun m => Scalar.getGrad hh m * chainRule h (rank m) m t)).sum +
          Scalar.getGrad hh n * (chainRule h (rank n) n t - if n = t then 1 else 0) := by
      have e1 : (fun m => Scalar.getGrad (Closure.call hh (hh.cell n)._backward) m *
          chainRule h (rank m) m t) = (fun m => Scalar.getGrad hh m * chainRule h (rank m) m t +
            Scalar.getGrad hh n * (edgeWeight h n m * chainRule h (rank m) m t)) := by
        funext m
        rw [getGrad_step hs hb hirr]
        ring
      rw [e1, List.sum_map_add, List.sum_map_mul_left,
        sum_edgeWeight h n L hnd.2 hpa.head (fun m => chainRule h (rank m) m t),
        chainRule_unfold h rank hd t n]
      ring
    rw [List.map_cons, List.sum_cons, runBackward_cons]
    have hunch : ∀ x, x ∉ L → Scalar.getGrad (runBackward (Closure.call hh (hh.cell n)._backward) L) x
        = Scalar.getGrad (Closure.call hh (hh.cell n)._backward) x := by
      intro x hx
      apply getGrad_runBackward_of_not_prev hb hirr x L _ hs1
      intro m hm hxm
      obtain ⟨l1, l2, rfl⟩ := List.append_of_mem hm
      exact hx (List.mem_append_right _ (List.mem_cons_of_mem _ (hpa.tail l1 m l2 rfl x hxm)))
    by_cases hnt : n = t
    · subst hnt
      rw [if_pos (List.mem_cons_self _ _), hunch n hnd.1, getGrad_step hs hb hirr,
        edgeWeight_eq_zero h n n (hirr n)]
      rw [if_neg hnd.1] at hstep
      rw [hstep] at hsum
      simp only [if_true] at hsum
      linarith
    · have hmem : (t ∈ n :: L) ↔ t ∈ L := by
        rw [List.mem_cons]
        constructor
        · rintro (h1 | h1)
          · exact absurd h1.symm hnt
          · exact h1
        · exact Or.inr
      rw [hstep] at hsum
      simp only [if_neg hnt, sub_zero] at hsum
      simp only [hmem]
      linarith

/-! ## The graph builder -/

theorem create_fst_cell (h : Heap) (d : ℚ) (q : Nat) :
    (Scalar.create h d).1.cell q = if q = h.next then
      { data := d, prev := [], grad := 0, _backward := Closure.noop } else h.cell q := rfl

theorem op_add_cell (h : Heap) (a b q : Nat) :
    (op_add h a b).1.cell q = if q = h.next then
      { data := Scalar.getData h a + Scalar.getData h b, prev := [a, b], grad := 0,
        _backward := Closure.add h.next a b } else h.cell q := by
  unfold op_add Scalar.create pushPrev setBackward Heap.write
  by_cases hq : q = h.next <;> simp [hq]

theorem op_mul_cell (h : Heap) (a b q : Nat) :
    (op_mul h a b).1.cell q = if q = h.next then
      { data := Scalar.getData h a * Scalar.getData h b, prev := [a, b], grad := 0,
        _backward := Closure.mul a b h.next } else h.cell q := by
  unfold op_mul Scalar.create pushPrev setBackward Heap.write
  by_cases hq : q = h.next <;> simp [hq]

theorem pow_cell (h : Heap) (a : Nat) (v : ℤ) (q : Nat) :
    (pow h a v).1.cell q = if q = h.next then
      { data := Scalar.getData h a ^ v, prev := [a], grad := 0,
        _backward := Closure.pow a h.next v } else h.cell q := by
  unfold pow Scalar.create pushPrev setBackward Heap.write
  by_cases hq : q = h.next <;> simp [hq]

theorem relu_cell (h : Heap) (a q : Nat) :
    (Scalar.relu h a).1.cell q = if q = h.next then
      { data := if Scalar.getData h a ≤ 0 then 0 else Scalar.getData h a, prev := [a], grad := 0,
        _backward := Closure.relu a h.next } else h.cell q := by
  unfold Scalar.relu Scalar.create pushPrev setBackward Heap.write
  by_cases hq : q = h.next <;> simp [hq]

theorem create_snd (h : Heap) (d : ℚ) : (Scalar.create h d).2 = h.next := rfl
theorem op_add_snd (h : Heap) (a b : Nat) : (op_add h a b).2 = h.next := rfl
theorem op_mul_snd (h : Heap) (a b : Nat) : (op_mul h a b).2 = h.next := rfl
theorem pow_snd (h : Heap) (a : Nat) (v : ℤ) : (pow h a v).2 = h.next := rfl
theorem relu_snd (h : Heap) (a : Nat) : (Scalar.relu h a).2 = h.next := rfl
theorem create_next (h : Heap) (d : ℚ) : (Scalar.create h d).1.next = h.next + 1 := rfl
theorem op_add_next (h : Heap) (a b : Nat) : (op_add h a b).1.next = h.next + 1 := rfl
theorem op_mul_next (h : Heap) (a b : Nat) : (op_mul h a b).1.next = h.next + 1 := rfl
theorem pow_next (h : Heap) (a : Nat) (v : ℤ) : (pow h a v).1.next = h.next + 1 := rfl
theorem relu_next (h : Heap) (a : Nat) : (Scalar.relu h a).1.next = h.next + 1 := rfl

theorem WellFormed.empty : WellFormed Heap.empty := by
  intro n
  refine ⟨rfl, ?_, fun _ => ⟨rfl, rfl⟩⟩
  intro p hp
  simp [Scalar.getPrev, Heap.empty] at hp

/-- Well-formedness is kept when a new object is allocated at `h.next` whose
predecessors are older and whose lambda fits them. -/
theorem WellFormed.alloc {h h1 : Heap} (hw : WellFormed h) (s : Scalar)
    (hcell : ∀ q, h1.cell q = if q = h.next then s else h.cell q)
    (hnext : h1.next = h.next + 1)
    (hs : match s._backward with
      | Closure.noop => s.prev = []
      | Closure.add o a b => o = h.next ∧ s.prev = [a, b]
      | Closure.mul a b o => o = h.next ∧ s.prev = [a, b]
      | Closure.pow a o _ => o = h.next ∧ s.prev = [a]
      | Closure.relu a o => o = h.next ∧ s.prev = [a])
    (hp : ∀ p ∈ s.prev, p < h.next) : WellFormed h1 := by
  intro n
  by_cases hn : n = h.next
  · subst hn
    refine ⟨?_, ?_, ?_⟩
    · unfold BuiltNode
      rw [hcell, if_pos rfl]
      exact hs
    · unfold Scalar.getPrev
      rw [hcell, if_pos rfl]
      exact hp
    · intro hle
      omega
  · obtain ⟨h1b, h2b, h3b⟩ := hw n
    refine ⟨?_, ?_, ?_⟩
    · unfold BuiltNode at *
      rw [hcell, if_neg hn]
      exact h1b
    · unfold Scalar.getPrev at *
      rw [hcell, if_neg hn]
      exact h2b
    · intro hle
      unfold IsLeaf at *
      rw [hcell, if_neg hn]
      exact h3b (by omega)

theorem WellFormed.create {h : Heap} (hw : WellFormed h) (d : ℚ) :
    WellFormed (Scalar.create h d).1 :=
  hw.alloc _ (create_fst_cell h d) rfl rfl (by simp)

theorem WellFormed.op_add {h : Heap} (hw : WellFormed h) {a b : Nat} (ha : a < h.next)
    (hb : b < h.next) : WellFormed (op_add h a b).1 :=
  hw.alloc _ (op_add_cell h a b) rfl ⟨rfl, rfl⟩ (by simp [ha, hb])

theorem WellFormed.op_mul {h : Heap} (hw : WellFormed h) {a b : Nat} (ha : a < h.next)
    (hb : b < h.next) : WellFormed (op_mul h a b).1 :=
  hw.alloc _ (op_mul_cell h a b) rfl ⟨rfl, rfl⟩ (by simp [ha, hb])

theorem WellFormed.pow {h : Heap} (hw : WellFormed h) {a : Nat} (ha : a < h.next) (v : ℤ) :
    WellFormed (pow h a v).1 :=
  hw.alloc _ (pow_cell h a v) rfl ⟨rfl, rfl⟩ (by simp [ha])

theorem WellFormed.relu {h : Heap} (hw : WellFormed h) {a : Nat} (ha : a < h.next) :
    WellFormed (Scalar.relu h a).1 :=
  hw.alloc _ (relu_cell h a) rfl ⟨rfl, rfl⟩ (by simp [ha])

theorem WellFormed.isDag {h : Heap} (hw : WellFormed h) : IsDag h id :=
  fun n p hp => (hw n).2.1 p hp

theorem WellFormed.built {h : Heap} (hw : WellFormed h) : ∀ n, BuiltNode h n :=
  fun n => (hw n).1

/-! ## The backward pass -/

/-- On a DAG `backward` returns: it runs the lambdas over a duplicate-free
sequence that starts with the root, holds exactly the reachable nodes and has
every node before its predecessors. -/
theorem backward_eq (h : Heap) (rank : Nat → Nat) (hd : IsDag h rank) (root fuel : Nat)
    (hfuel : rank root < fuel) :
    ∃ l, Scalar.backward fuel h root = some (runBackward (Scalar.setGrad h root 1) (root :: l)) ∧
      (root :: l).Nodup ∧ PredsAfter h (root :: l) ∧
      ∀ n, n ∈ root :: l ↔ Reachable h root n := by
  obtain ⟨nodes, visited, hres, hnd, hpb, hmem, l, hl⟩ := topo_sort_root h rank hd root fuel hfuel
  have hrev : nodes.reverse = root :: l.reverse := by rw [hl]; simp
  refine ⟨l.reverse, ?_, ?_, ?_, ?_⟩
  · simp only [Scalar.backward, hres, hrev]
  · rw [← hrev]; exact List.nodup_reverse.2 hnd
  · rw [← hrev]; exact hpb.reverse
  · intro n
    rw [← hrev, List.mem_reverse]
    exact hmem n

/-- The root's gradient after a pass is the seed 1, whatever the gradients were before. -/
theorem backward_root (h : Heap) (rank : Nat → Nat) (hd : IsDag h rank)
    (hb : ∀ n, BuiltNode h n) (root fuel : Nat) (hfuel : rank root < fuel) :
    ∃ h1, Scalar.backward fuel h root = some h1 ∧ Scalar.getGrad h1 root = 1 := by
  have hirr : ∀ n, n ∉ Scalar.getPrev h n := fun n hn => lt_irrefl _ (hd n n hn)
  obtain ⟨l, hres, hnd, hpa, _⟩ := backward_eq h rank hd root fuel hfuel
  refine ⟨_, hres, ?_⟩
  rw [List.nodup_cons] at hnd
  have hs := SameGraph.setGrad h root 1
  rw [runBackward_cons, getGrad_runBackward_of_not_prev hb hirr root l _
    (hs.trans (SameGraph.call _ _)), getGrad_step hs hb hirr,
    edgeWeight_eq_zero h root root (hirr root), getGrad_setGrad]
  · simp
  · intro m hm hrm
    obtain ⟨l1, l2, rfl⟩ := List.append_of_mem hm
    exact hnd.1 (List.mem_append_right _ (List.mem_cons_of_mem _ (hpa.tail l1 m l2 rfl root hrm)))

theorem topo_sort_leaf (h : Heap) (k x : Nat) (nodes visited : List Nat)
    (hx : Scalar.getPrev h x = []) (hv : x ∉ visited) :
    topo_sort h (k + 1) x (nodes, visited) = some (nodes ++ [x], x :: visited) := by
  simp [topo_sort, hv, hx, forPrev]

theorem SameGraph.reachable {h h1 : Heap} (hs : SameGraph h h1) (r n : Nat) :
    Reachable h1 r n ↔ Reachable h r n := by
  have : (fun x y => y ∈ Scalar.getPrev h1 x) = (fun x y => y ∈ Scalar.getPrev h x) := by
    funext x y
    rw [hs.getPrev]
  unfold Reachable
  rw [this]

theorem SameGraph.keepsDag {h h1 : Heap} (hs : SameGraph h h1) {rank : Nat → Nat}
    (hd : IsDag h rank) : IsDag h1 rank := by
  intro n p hp
  rw [hs.getPrev] at hp
  exact hd n p hp

theorem backward_sameGraph (h : Heap) (fuel root : Nat) (h1 : Heap)
    (hres : Scalar.backward fuel h root = some h1) : SameGraph h h1 := by
  unfold Scalar.backward at hres
  split at hres
  · simp at hres
  · simp only [Option.some.injEq] at hres
    rw [← hres]
    exact (SameGraph.setGrad h root 1).trans (SameGraph.runBackward _ _)

/-- One pass seen from a node `t` other than the root whose only consumers
reachable from the root are the root itself: its gradient grows by the weight
of the edges from the root to it. -/
theorem backward_direct_operand (h : Heap) (rank : Nat → Nat) (hd : IsDag h rank)
    (hb : ∀ n, BuiltNode h n) (root fuel : Nat) (hfuel : rank root < fuel) (t : Nat)
    (ht : t ≠ root) (hcons : ∀ q, Reachable h root q → t ∈ Scalar.getPrev h q → q = root) :
    ∃ h1, Scalar.backward fuel h root = some h1 ∧
      Scalar.getGrad h1 t = Scalar.getGrad h t + edgeWeight h root t := by
  have hirr : ∀ n, n ∉ Scalar.getPrev h n := fun n hn => lt_irrefl _ (hd n n hn)
  obtain ⟨l, hres, hnd, hpa, hmem⟩ := backward_eq h rank hd root fuel hfuel
  refine ⟨_, hres, ?_⟩
  rw [List.nodup_cons] at hnd
  have hs := SameGraph.setGrad h root 1
  rw [runBackward_cons, getGrad_runBackward_of_not_prev hb hirr t l _
    (hs.trans (SameGraph.call _ _)), getGrad_step hs hb hirr, getGrad_setGrad, getGrad_setGrad,
    if_neg ht, if_pos rfl, one_mul]
  intro m hm htm
  have hmr : m = root := hcons m ((hmem m).1 (List.mem_cons_of_mem _ hm)) htm
  exact hnd.1 (hmr ▸ hm)

/-! ## More fuel does not change a result -/

theorem forPrev_mono (f g : Nat → List Nat × List Nat → Option (List Nat × List Nat))
    (hfg : ∀ v st r, f v st = some r → g v st = some r) :
    ∀ (ps : List Nat) (st r : List Nat × List Nat),
      forPrev f ps st = some r → forPrev g ps st = some r := by
  intro ps
  induction ps with
  | nil => intro st r hr; exact hr
  | cons p ps ih =>
    intro st r hr
    simp only [forPrev] at hr ⊢
    cases hf : f p st with
    | none => rw [hf] at hr; simp at hr
    | some st1 =>
      rw [hf] at hr
      rw [hfg p st st1 hf]
      exact ih st1 r hr

theorem topo_sort_succ (h : Heap) :
    ∀ (k v : Nat) (st r : List Nat × List Nat),
      topo_sort h k v st = some r → topo_sort h (k + 1) v st = some r := by
  intro k
  induction k with
  | zero => intro v st r hr; simp [topo_sort] at hr
  | succ k ih =>
    intro v st r hr
    obtain ⟨nodes, visited⟩ := st
    rw [topo_sort] at hr ⊢
    by_cases hv : v ∈ visited
    · simpa [hv] using hr
    · simp only [hv, if_false] at hr ⊢
      cases hloop : forPrev (topo_sort h k) (Scalar.getPrev h v) (nodes, v :: visited) with
      | none => rw [hloop] at hr; simp at hr
      | some st1 =>
        rw [hloop] at hr
        rw [forPrev_mono _ _ (ih) _ _ _ hloop]
        exact hr

theorem topo_sort_mono (h : Heap) (k k1 v : Nat) (st r : List Nat × List Nat) (hk : k ≤ k1)
    (hr : topo_sort h k v st = some r) : topo_sort h k1 v st = some r := by
  induction hk with
  | refl => exact hr
  | step _ ih => exact topo_sort_succ h _ v st r ih

theorem backward_mono (h : Heap) (k k1 root : Nat) (h1 : Heap) (hk : k ≤ k1)
    (hr : Scalar.backward k h root = some h1) : Scalar.backward k1 h root = some h1 := by
  unfold Scalar.backward at hr ⊢
  cases ht : topo_sort h k root ([], []) with
  | none => rw [ht] at hr; simp at hr
  | some st =>
    rw [ht] at hr
    rw [topo_sort_mono h k k1 root _ st hk ht]
    exact hr

theorem SameGraph.pathsTo {h h1 : Heap} (hs : SameGraph h h1) (t : Nat) :
    ∀ k r, pathsTo h1 t k r = pathsTo h t k r := by
  intro k
  induction k with
  | zero => intro r; rfl
  | succ k ih =>
    intro r
    simp only [MiniGrad.pathsTo, hs.localPartials, ih]

theorem SameGraph.chainRule {h h1 : Heap} (hs : SameGraph h h1) (k r t : Nat) :
    chainRule h1 k r t = chainRule h k r t := by
  unfold MiniGrad.chainRule
  rw [hs.pathsTo]

/-- A pass over a graph with arbitrary gradients: the final gradient of a
reachable node `t` is the sum over the reachable nodes `m` of the gradient `m`
starts with (1 for the root) times the derivative of `m` with respect to `t`. -/
theorem backward_general (h : Heap) (rank : Nat → Nat) (hd : IsDag h rank)
    (hb : ∀ n, BuiltNode h n) (root fuel : Nat) (hfuel : rank root < fuel) :
    ∃ (h1 : Heap) (L : List Nat), Scalar.backward fuel h root = some h1 ∧ L.Nodup ∧
      (∀ n, n ∈ L ↔ Reachable h root n) ∧
      ∀ t, Reachable h root t → Scalar.getGrad h1 t =
        (L.map (fun m => (if m = root then 1 else Scalar.getGrad h m) *
          chainRule h (rank m) m t)).sum := by
  obtain ⟨l, hres, hnd, hpa, hmem⟩ := backward_eq h rank hd root fuel hfuel
  refine ⟨_, root :: l, hres, hnd, hmem, ?_⟩
  intro t ht
  have hpot := runBackward_potential rank hd hb t (root :: l) (Scalar.setGrad h root 1)
    (SameGraph.setGrad h root 1) hnd hpa
  rw [if_pos ((hmem t).2 ht)] at hpot
  rw [← hpot]
  congr 1
  apply List.map_congr_left
  intro m _
  rw [getGrad_setGrad]

/-! ## The example graphs are well formed -/

theorem twoLeaves_wf : WellFormed (Scalar.create (Scalar.create Heap.empty 2).1 5).1 :=
  (WellFormed.empty.create 2).create 5

theorem squareGraph_wf : WellFormed squareGraph.1 :=
  WellFormed.op_mul (WellFormed.empty.create 3) (Nat.zero_lt_one) (Nat.zero_lt_one)

theorem chainGraph_wf : WellFormed chainGraph.1 := by
  refine WellFormed.relu (WellFormed.relu (WellFormed.empty.create 3) ?_) ?_ <;>
    decide

theorem mixedGraph_wf : WellFormed mixedGraph.1 := by
  refine WellFormed.relu (WellFormed.pow (WellFormed.op_add (WellFormed.op_mul
    ((WellFormed.empty.create 2).create (-3)) ?_ ?_) ?_ ?_) ?_ 2) ?_ <;>
    decide

theorem squareGraph_grad_zero : ∀ n, Scalar.getGrad squareGraph.1 n = 0 := by
  intro n
  simp only [squareGraph, Scalar.getGrad, op_mul_cell, create_fst_cell]
  split_ifs <;> rfl

theorem mixedGraph_grad_zero : ∀ n, Scalar.getGrad mixedGraph.1 n = 0 := by
  intro n
  simp only [mixedGraph, Scalar.getGrad, relu_cell, pow_cell, op_add_cell, op_mul_cell,
    create_fst_cell]
  split_ifs <;> rfl


/-! ## Derived operations, reachable states, frame and refinement -/

/-! ## Forward values -/

theorem getData_create_new (h : Heap) (d : ℚ) :
    Scalar.getData (Scalar.create h d).1 h.next = d := by
  simp [Scalar.getData, create_fst_cell]

theorem getData_create_old (h : Heap) (d : ℚ) (q : Nat) (hq : q ≠ h.next) :
    Scalar.getData (Scalar.create h d).1 q = Scalar.getData h q := by
  simp [Scalar.getData, create_fst_cell, hq]

theorem getData_op_add_new (h : Heap) (a b : Nat) :
    Scalar.getData (op_add h a b).1 (op_add h a b).2 = Scalar.getData h a + Scalar.getData h b := by
  simp [Scalar.getData, op_add_cell, op_add_snd]

theorem getData_op_mul_new (h : Heap) (a b : Nat) :
    Scalar.getData (op_mul h a b).1 (op_mul h a b).2 = Scalar.getData h a * Scalar.getData h b := by
  simp [Scalar.getData, op_mul_cell, op_mul_snd]

theorem getData_op_mul_old (h : Heap) (a b q : Nat) (hq : q ≠ h.next) :
    Scalar.getData (op_mul h a b).1 q = Scalar.getData h q := by
  simp [Scalar.getData, op_mul_cell, hq]

theorem getData_pow_new (h : Heap) (a : Nat) (v : ℤ) :
    Scalar.getData (pow h a v).1 (pow h a v).2 = Scalar.getData h a ^ v := by
  simp [Scalar.getData, pow_cell, pow_snd]

theorem getData_pow_old (h : Heap) (a : Nat) (v : ℤ) (q : Nat) (hq : q ≠ h.next) :
    Scalar.getData (pow h a v).1 q = Scalar.getData h q := by
  simp [Scalar.getData, pow_cell, hq]

theorem getData_op_neg (h : Heap) (a : Nat) (ha : a < h.next) :
    Scalar.getData (op_neg h a).1 (op_neg h a).2 = -Scalar.getData h a := by
  have hne : a ≠ h.next := Nat.ne_of_lt ha
  show Scalar.getData (op_mul (Scalar.create h (-1)).1 a (Scalar.create h (-1)).2).1
    (op_mul (Scalar.create h (-1)).1 a (Scalar.create h (-1)).2).2 = _
  rw [getData_op_mul_new, create_snd, getData_create_new, getData_create_old h _ a hne]
  ring

theorem getData_op_neg_old (h : Heap) (a q : Nat) (hq : q < h.next) :
    Scalar.getData (op_neg h a).1 q = Scalar.getData h q := by
  show Scalar.getData (op_mul (Scalar.create h (-1)).1 a (Scalar.create h (-1)).2).1 q = _
  rw [getData_op_mul_old _ _ _ _ (by rw [create_next]; omega),
    getData_create_old h _ q (Nat.ne_of_lt hq)]

theorem getData_op_sub (h : Heap) (a b : Nat) (ha : a < h.next) (hb : b < h.next) :
    Scalar.getData (op_sub h a b).1 (op_sub h a b).2 = Scalar.getData h a - Scalar.getData h b := by
  show Scalar.getData (op_add (op_neg h b).1 a (op_neg h b).2).1
    (op_add (op_neg h b).1 a (op_neg h b).2).2 = _
  rw [getData_op_add_new, getData_op_neg h b hb, getData_op_neg_old h b a ha]
  ring

theorem getData_op_div (h : Heap) (a b : Nat) (ha : a < h.next) :
    Scalar.getData (op_div h a b).1 (op_div h a b).2 = Scalar.getData h a / Scalar.getData h b := by
  show Scalar.getData (op_mul (pow h b (-1)).1 a (pow h b (-1)).2).1
    (op_mul (pow h b (-1)).1 a (pow h b (-1)).2).2 = _
  rw [getData_op_mul_new, getData_pow_new, getData_pow_old h b _ a (Nat.ne_of_lt ha),
    zpow_neg_one, div_eq_mul_inv]

theorem op_div_eq (h : Heap) (a b : Nat) :
    op_div h a b = op_mul (pow h b (-1)).1 a (pow h b (-1)).2 := rfl

theorem op_neg_eq (h : Heap) (a : Nat) :
    op_neg h a = op_mul (Scalar.create h (-1)).1 a (Scalar.create h (-1)).2 := rfl

theorem op_sub_eq (h : Heap) (a b : Nat) :
    op_sub h a b = op_add (op_neg h b).1 a (op_neg h b).2 := rfl

/-- The heap after `a / b`: the reciprocal of `b` at `h.next`, the quotient after it. -/
theorem op_div_cell (h : Heap) (a b q : Nat) :
    (op_div h a b).1.cell q =
      if q = h.next + 1 then
        { data := Scalar.getData (pow h b (-1)).1 a * Scalar.getData (pow h b (-1)).1 h.next,
          prev := [a, h.next], grad := 0, _backward := Closure.mul a h.next (h.next + 1) }
      else if q = h.next then
        { data := Scalar.getData h b ^ (-1 : ℤ), prev := [b], grad := 0,
          _backward := Closure.pow b h.next (-1) }
      else h.cell q := by
  rw [op_div_eq, op_mul_cell, pow_next, pow_snd, pow_cell]

/-- The heap after `a - b`: the constant -1 at `h.next`, then `b * -1`, then the sum. -/
theorem op_sub_cell (h : Heap) (a b q : Nat) :
    (op_sub h a b).1.cell q =
      if q = h.next + 2 then
        { data := Scalar.getData (op_neg h b).1 a + Scalar.getData (op_neg h b).1 (h.next + 1),
          prev := [a, h.next + 1], grad := 0,
          _backward := Closure.add (h.next + 2) a (h.next + 1) }
      else if q = h.next + 1 then
        { data := Scalar.getData (Scalar.create h (-1)).1 b *
            Scalar.getData (Scalar.create h (-1)).1 h.next,
          prev := [b, h.next], grad := 0, _backward := Closure.mul b h.next (h.next + 1) }
      else if q = h.next then
        { data := -1, prev := [], grad := 0, _backward := Closure.noop }
      else h.cell q := by
  rw [op_sub_eq, op_add_cell, op_neg_eq, op_mul_next, create_next, op_mul_snd, create_next,
    op_mul_cell, create_next, create_snd, create_fst_cell]

theorem op_div_snd (h : Heap) (a b : Nat) : (op_div h a b).2 = h.next + 1 := rfl
theorem op_sub_snd (h : Heap) (a b : Nat) : (op_sub h a b).2 = h.next + 2 := rfl
theorem op_neg_snd (h : Heap) (a : Nat) : (op_neg h a).2 = h.next + 1 := rfl
theorem op_div_next (h : Heap) (a b : Nat) : (op_div h a b).1.next = h.next + 2 := rfl
theorem op_sub_next (h : Heap) (a b : Nat) : (op_sub h a b).1.next = h.next + 3 := rfl
theorem op_neg_next (h : Heap) (a : Nat) : (op_neg h a).1.next = h.next + 2 := rfl

/-! ## Constructing calls -/

theorem op_add_sd_eq (h : Heap) (a : Nat) (v : ℚ) :
    op_add_sd h a v = op_add (Scalar.create h v).1 a (Scalar.create h v).2 := rfl
theorem op_add_ds_eq (h : Heap) (v : ℚ) (b : Nat) :
    op_add_ds h v b = op_add (Scalar.create h v).1 b (Scalar.create h v).2 := rfl
theorem op_mul_sd_eq (h : Heap) (a : Nat) (v : ℚ) :
    op_mul_sd h a v = op_mul (Scalar.create h v).1 a (Scalar.create h v).2 := rfl
theorem op_mul_ds_eq (h : Heap) (v : ℚ) (b : Nat) :
    op_mul_ds h v b = op_mul (Scalar.create h v).1 b (Scalar.create h v).2 := rfl
theorem op_sub_ds_eq (h : Heap) (v : ℚ) (a : Nat) :
    op_sub_ds h v a = op_sub (Scalar.create h v).1 (Scalar.create h v).2 a := rfl
theorem op_div_sd_eq (h : Heap) (a : Nat) (v : ℚ) :
    op_div_sd h a v = op_div (Scalar.create h v).1 a (Scalar.create h v).2 := rfl
theorem op_div_ds_eq (h : Heap) (v : ℚ) (b : Nat) :
    op_div_ds h v b = op_div (Scalar.create h v).1 (Scalar.create h v).2 b := rfl

theorem WellFormed.op_neg {h : Heap} (hw : WellFormed h) {a : Nat} (ha : a < h.next) :
    WellFormed (op_neg h a).1 := by
  rw [op_neg_eq]
  exact WellFormed.op_mul (hw.create (-1)) (by rw [create_next]; omega)
    (by rw [create_next, create_snd]; omega)

theorem WellFormed.op_sub {h : Heap} (hw : WellFormed h) {a b : Nat} (ha : a < h.next)
    (hb : b < h.next) : WellFormed (op_sub h a b).1 := by
  rw [op_sub_eq]
  exact WellFormed.op_add (hw.op_neg hb) (by rw [op_neg_next]; omega)
    (by rw [op_neg_next, op_neg_snd]; omega)

theorem WellFormed.op_div {h : Heap} (hw : WellFormed h) {a b : Nat} (ha : a < h.next)
    (hb : b < h.next) : WellFormed (op_div h a b).1 := by
  rw [op_div_eq]
  exact WellFormed.op_mul (hw.pow hb (-1)) (by rw [pow_next]; omega)
    (by rw [pow_next, pow_snd]; omega)

/-- Every constructing call on existing nodes keeps the heap well formed. -/
theorem WellFormed.build {h : Heap} (hw : WellFormed h) (c : Build)
    (hc : ∀ p ∈ c.args, p < h.next) : WellFormed (c.run h).1 := by
  have hv : ∀ v : ℚ, (Scalar.create h v).2 < (Scalar.create h v).1.next := by
    intro v; rw [create_next, create_snd]; omega
  have hlt : ∀ (v : ℚ) (p : Nat), p < h.next → p < (Scalar.create h v).1.next := by
    intro v p hp; rw [create_next]; omega
  cases c with
  | create v => exact hw.create v
  | add a b => exact hw.op_add (hc a (by simp [Build.args])) (hc b (by simp [Build.args]))
  | add_sd a v =>
    exact WellFormed.op_add (hw.create v) (hlt v a (hc a (by simp [Build.args]))) (hv v)
  | add_ds v b =>
    exact WellFormed.op_add (hw.create v) (hlt v b (hc b (by simp [Build.args]))) (hv v)
  | mul a b => exact hw.op_mul (hc a (by simp [Build.args])) (hc b (by simp [Build.args]))
  | mul_sd a v =>
    exact WellFormed.op_mul (hw.create v) (hlt v a (hc a (by simp [Build.args]))) (hv v)
  | mul_ds v b =>
    exact WellFormed.op_mul (hw.create v) (hlt v b (hc b (by simp [Build.args]))) (hv v)
  | neg a => exact hw.op_neg (hc a (by simp [Build.args]))
  | sub a b => exact hw.op_sub (hc a (by simp [Build.args])) (hc b (by simp [Build.args]))
  | sub_ds v a =>
    exact WellFormed.op_sub (hw.create v) (hv v) (hlt v a (hc a (by simp [Build.args])))
  | pow a v => exact hw.pow (hc a (by simp [Build.args])) v
  | div a b => exact hw.op_div (hc a (by simp [Build.args])) (hc b (by simp [Build.args]))
  | div_sd a v =>
    exact WellFormed.op_div (hw.create v) (hlt v a (hc a (by simp [Build.args]))) (hv v)
  | div_ds v b =>
    exact WellFormed.op_div (hw.create v) (hv v) (hlt v b (hc b (by simp [Build.args])))
  | relu a => exact hw.relu (hc a (by simp [Build.args]))

/-- A constructing call allocates at least one object, returns the one it
allocated last, gives it the gradient 0 and leaves every existing object as
it is. -/
theorem Build.run_frame (h : Heap) (c : Build) :
    h.next < (c.run h).1.next ∧ (c.run h).2 + 1 = (c.run h).1.next ∧
    Scalar.getGrad (c.run h).1 (c.run h).2 = 0 ∧
    ∀ q, q < h.next → (c.run h).1.cell q = h.cell q := by
  refine ⟨?_, ?_, ?_, ?_⟩
  · cases c <;>
      simp [Build.run, op_add_sd_eq, op_add_ds_eq, op_mul_sd_eq, op_mul_ds_eq, op_sub_ds_eq,
        op_div_sd_eq, op_div_ds_eq, op_sub_next, op_div_next, op_neg_next, op_add_next,
        op_mul_next, pow_next, relu_next, create_next] <;> omega
  · cases c <;>
      simp [Build.run, op_add_sd_eq, op_add_ds_eq, op_mul_sd_eq, op_mul_ds_eq, op_sub_ds_eq,
        op_div_sd_eq, op_div_ds_eq, op_sub_next, op_div_next, op_neg_next, op_add_next,
        op_mul_next, pow_next, relu_next, create_next, op_sub_snd, op_div_snd, op_neg_snd,
        op_add_snd, op_mul_snd, pow_snd, relu_snd, create_snd]
  · cases c <;>
      simp [Build.run, Scalar.getGrad, op_add_sd_eq, op_add_ds_eq, op_mul_sd_eq, op_mul_ds_eq,
        op_sub_ds_eq, op_div_sd_eq, op_div_ds_eq, op_sub_cell, op_div_cell, op_neg_eq,
        op_add_cell, op_mul_cell, pow_cell, relu_cell, create_fst_cell, op_sub_snd, op_div_snd,
        op_add_snd, op_mul_snd, pow_snd, relu_snd, create_snd, create_next]
  · intro q hq
    have h0 : q ≠ h.next := by omega
    have h1 : q ≠ h.next + 1 := by omega
    have h2 : q ≠ h.next + 2 := by omega
    have h3 : q ≠ h.next + 3 := by omega
    have h12 : q ≠ h.next + 1 + 1 := by omega
    have h13 : q ≠ h.next + 1 + 2 := by omega
    cases c <;>
      simp [Build.run, op_add_sd_eq, op_add_ds_eq, op_mul_sd_eq, op_mul_ds_eq,
        op_sub_ds_eq, op_div_sd_eq, op_div_ds_eq, op_sub_cell, op_div_cell, op_neg_eq,
        op_add_cell, op_mul_cell, pow_cell, relu_cell, create_fst_cell, create_next,
        h0, h1, h2, h3, h12, h13]

/-! ## The states a client reaches -/

theorem setGrad_next (h : Heap) (p : Nat) (g : ℚ) : (Scalar.setGrad h p g).next = h.next := rfl

theorem setData_next (h : Heap) (p : Nat) (d : ℚ) : (Scalar.setData h p d).next = h.next := rfl

theorem addGrad_next (h : Heap) (p : Nat) (x : ℚ) : (addGrad h p x).next = h.next := rfl

theorem call_next (h : Heap) (c : Closure) : (Closure.call h c).next = h.next := by
  cases c <;> rfl

theorem runBackward_next (h : Heap) (L : List Nat) : (runBackward h L).next = h.next := by
  induction L generalizing h with
  | nil => rfl
  | cons n L ih => rw [runBackward_cons, ih, call_next]

theorem backward_next (h : Heap) (fuel root : Nat) (h1 : Heap)
    (hres : Scalar.backward fuel h root = some h1) : h1.next = h.next := by
  unfold Scalar.backward at hres
  split at hres
  · simp at hres
  · simp only [Option.some.injEq] at hres
    rw [← hres, runBackward_next, setGrad_next]

theorem getPrev_setData (h : Heap) (p : Nat) (d : ℚ) (n : Nat) :
    Scalar.getPrev (Scalar.setData h p d) n = Scalar.getPrev h n := by
  unfold Scalar.setData Heap.write Scalar.getPrev
  by_cases hn : n = p <;> simp [hn]

theorem getPrev_setGrad (h : Heap) (p : Nat) (g : ℚ) (n : Nat) :
    Scalar.getPrev (Scalar.setGrad h p g) n = Scalar.getPrev h n :=
  (SameGraph.setGrad h p g).getPrev n

/-- Well-formedness looks at predecessor lists, lambdas and `next` only. -/
theorem WellFormed.of_same_shape {h h1 : Heap} (hw : WellFormed h) (hnext : h1.next = h.next)
    (hsame : ∀ q, (h1.cell q).prev = (h.cell q).prev ∧
      (h1.cell q)._backward = (h.cell q)._backward) : WellFormed h1 := by
  intro n
  obtain ⟨h1b, h2b, h3b⟩ := hw n
  refine ⟨?_, ?_, ?_⟩
  · unfold BuiltNode at *
    rw [(hsame n).1, (hsame n).2]
    exact h1b
  · unfold Scalar.getPrev at *
    rw [(hsame n).1]
    exact h2b
  · intro hle
    unfold IsLeaf at *
    rw [(hsame n).1, (hsame n).2]
    exact h3b (by omega)

theorem WellFormed.setData {h : Heap} (hw : WellFormed h) (p : Nat) (d : ℚ) :
    WellFormed (Scalar.setData h p d) := by
  refine hw.of_same_shape rfl ?_
  intro q
  unfold Scalar.setData Heap.write
  by_cases hq : q = p <;> simp [hq]

theorem WellFormed.of_sameGraph {h h1 : Heap} (hw : WellFormed h) (hnext : h1.next = h.next)
    (hs : SameGraph h h1) : WellFormed h1 :=
  hw.of_same_shape hnext (fun q => ⟨(hs q).2.1, (hs q).2.2⟩)

/-- Every state a client reaches is well formed. -/
theorem ReachableState.wellFormed {h : Heap} (hr : ReachableState h) : WellFormed h := by
  induction hr with
  | empty => exact WellFormed.empty
  | build h c _ hc ih => exact ih.build c hc
  | setData h p d _ _ ih => exact ih.setData p d
  | setGrad h p g _ _ ih => exact ih.of_sameGraph rfl (SameGraph.setGrad h p g)
  | backward h fuel root h1 _ _ hres ih =>
    exact ih.of_sameGraph (backward_next h fuel root h1 hres) (backward_sameGraph h fuel root h1 hres)

/-- In a well-formed heap a non-empty predecessor path leads to an older node. -/
theorem WellFormed.transGen_lt {h : Heap} (hw : WellFormed h) {n m : Nat}
    (hp : Relation.TransGen (fun x y => y ∈ Scalar.getPrev h x) n m) : m < n := by
  induction hp with
  | single hnm => exact (hw n).2.1 _ hnm
  | tail _ hbc ih => exact lt_trans ((hw _).2.1 _ hbc) ih

theorem WellFormed.prev_allocated {h : Heap} (hw : WellFormed h) {n p : Nat}
    (hp : p ∈ Scalar.getPrev h n) : p < n ∧ n < h.next := by
  refine ⟨(hw n).2.1 p hp, ?_⟩
  by_contra hlt
  have hleaf := (hw n).2.2 (not_lt.1 hlt)
  unfold Scalar.getPrev at hp
  rw [hleaf.1] at hp
  simp at hp

/-! ## Frame of the backward pass -/

theorem backward_leaf (h : Heap) (x j : Nat) (hx : IsLeaf h x) :
    Scalar.backward (j + 1) h x = some (Scalar.setGrad h x 1) := by
  have hp : Scalar.getPrev h x = [] := hx.1
  have hc : ((Scalar.setGrad h x 1).cell x)._backward = Closure.noop := by
    rw [(SameGraph.setGrad h x 1 x).2.2]; exact hx.2
  simp only [Scalar.backward, topo_sort_leaf h j x [] [] hp (by simp), List.nil_append,
    List.reverse_cons, List.reverse_nil, runBackward_cons, runBackward_nil, hc, Closure.call]

/-- A pass leaves the gradient of a node that the root does not reach as it was. -/
theorem backward_unreachable (h : Heap) (rank : Nat → Nat) (hd : IsDag h rank)
    (hb : ∀ n, BuiltNode h n) (root fuel : Nat) (hfuel : rank root < fuel) :
    ∃ h1, Scalar.backward fuel h root = some h1 ∧
      ∀ t, ¬ Reachable h root t → Scalar.getGrad h1 t = Scalar.getGrad h t := by
  have hirr : ∀ n, n ∉ Scalar.getPrev h n := fun n hn => lt_irrefl _ (hd n n hn)
  obtain ⟨l, hres, _, _, hmem⟩ := backward_eq h rank hd root fuel hfuel
  refine ⟨_, hres, ?_⟩
  intro t ht
  have htr : t ≠ root := fun hc => ht (hc ▸ Relation.ReflTransGen.refl)
  rw [getGrad_runBackward_of_not_prev hb hirr t (root :: l) _ (SameGraph.setGrad h root 1),
    getGrad_setGrad, if_neg htr]
  intro m hm htm
  exact ht (Relation.ReflTransGen.tail ((hmem m).1 hm) htm)

/-- A pass over a graph whose gradients are all 0 leaves each reachable node
with the chain-rule derivative and each other node with 0. -/
theorem backward_from_zero (h : Heap) (rank : Nat → Nat) (hd : IsDag h rank)
    (hb : ∀ n, BuiltNode h n) (hz : ∀ n, Scalar.getGrad h n = 0) (root fuel : Nat)
    (hfuel : rank root < fuel) :
    ∃ h1, Scalar.backward fuel h root = some h1 ∧
      (∀ t, Reachable h root t → Scalar.getGrad h1 t = chainRule h (rank root) root t) ∧
      ∀ t, ¬ Reachable h root t → Scalar.getGrad h1 t = 0 := by
  obtain ⟨h1, hres, hun⟩ := backward_unreachable h rank hd hb root fuel hfuel
  obtain ⟨h1b, L, hresb, hnd, hmem, hsum⟩ := backward_general h rank hd hb root fuel hfuel
  rw [hres] at hresb
  obtain rfl := Option.some.inj hresb
  refine ⟨h1, hres, ?_, fun t ht => by rw [hun t ht, hz t]⟩
  intro t ht
  rw [hsum t ht]
  have hfun : (fun m => (if m = root then 1 else Scalar.getGrad h m) * chainRule h (rank m) m t) =
      (fun m => (if root = m then 1 else 0) * chainRule h (rank m) m t) := by
    funext m
    rw [hz m]
    by_cases hm : m = root
    · simp [hm]
    · have hm2 : root ≠ m := fun hc => hm hc.symm
      simp [hm, hm2]
  rw [hfun, sum_map_single L hnd root ((hmem root).2 Relation.ReflTransGen.refl) 1, one_mul]

theorem zero_grad_nil (h : Heap) : zero_grad h [] = h := rfl

theorem zero_grad_cons (h : Heap) (p : Nat) (L : List Nat) :
    zero_grad h (p :: L) = zero_grad (Scalar.setGrad h p 0) L := rfl

theorem SameGraph.zero_grad (h : Heap) (L : List Nat) : SameGraph h (zero_grad h L) := by
  induction L generalizing h with
  | nil => exact SameGraph.refl h
  | cons p L ih =>
    rw [zero_grad_cons]
    exact (SameGraph.setGrad h p 0).trans (ih _)

theorem getGrad_zero_grad (h : Heap) (L : List Nat) (n : Nat) :
    Scalar.getGrad (zero_grad h L) n = if n ∈ L then 0 else Scalar.getGrad h n := by
  induction L generalizing h with
  | nil => simp [zero_grad_nil]
  | cons p L ih =>
    rw [zero_grad_cons, ih, getGrad_setGrad]
    by_cases hn : n ∈ L
    · simp [hn]
    · by_cases hp : n = p
      · simp [hp]
      · simp [hn, hp]

/-! ## The sorter of the code and the sorter of the specification -/

theorem postmark_loop (h : Heap) (fuel : Nat) (P : Nat → Prop)
    (hcall : ∀ (v : Nat) (nodes vp vq : List Nat), P v →
      (∀ d, Reachable h v d → (d ∈ vp ↔ d ∈ vq)) →
      ∃ (nodes1 vp1 vq1 S : List Nat), topo_sort h fuel v (nodes, vp) = some (nodes1, vp1) ∧
        (if v ∈ vq then some (nodes, vq) else topo_sort_postmark h fuel v (nodes, vq)) =
          some (nodes1, vq1) ∧
        (∀ d, d ∈ vp1 ↔ d ∈ vp ∨ d ∈ S) ∧ (∀ d, d ∈ vq1 ↔ d ∈ vq ∨ d ∈ S)) :
    ∀ (ps : List Nat) (nodes vp vq : List Nat), (∀ p ∈ ps, P p) →
      (∀ p ∈ ps, ∀ d, Reachable h p d → (d ∈ vp ↔ d ∈ vq)) →
      ∃ (nodes1 vp1 vq1 S : List Nat),
        forPrev (topo_sort h fuel) ps (nodes, vp) = some (nodes1, vp1) ∧
        forPrev (fun p st1 => if p ∈ st1.2 then some st1 else topo_sort_postmark h fuel p st1)
          ps (nodes, vq) = some (nodes1, vq1) ∧
        (∀ d, d ∈ vp1 ↔ d ∈ vp ∨ d ∈ S) ∧ (∀ d, d ∈ vq1 ↔ d ∈ vq ∨ d ∈ S) := by
  intro ps
  induction ps with
  | nil =>
    intro nodes vp vq _ _
    exact ⟨nodes, vp, vq, [], rfl, rfl, by simp, by simp⟩
  | cons p ps ih =>
    intro nodes vp vq hP hag
    obtain ⟨n1, vp1, vq1, S1, hpre1, hpost1, hvp1, hvq1⟩ :=
      hcall p nodes vp vq (hP p (List.mem_cons_self _ _)) (hag p (List.mem_cons_self _ _))
    have hag2 : ∀ q ∈ ps, ∀ d, Reachable h q d → (d ∈ vp1 ↔ d ∈ vq1) := by
      intro q hq d hd
      rw [hvp1, hvq1, hag q (List.mem_cons_of_mem _ hq) d hd]
    obtain ⟨n2, vp2, vq2, S2, hpre2, hpost2, hvp2, hvq2⟩ :=
      ih n1 vp1 vq1 (fun q hq => hP q (List.mem_cons_of_mem _ hq)) hag2
    refine ⟨n2, vp2, vq2, S1 ++ S2, ?_, ?_, ?_, ?_⟩
    · simp only [forPrev, hpre1, hpre2]
    · simp only [forPrev]
      rw [hpost1]
      exact hpost2
    · intro d; rw [hvp2, hvp1, List.mem_append]; tauto
    · intro d; rw [hvq2, hvq1, List.mem_append]; tauto

theorem postmark_call (h : Heap) (rank : Nat → Nat) (hd : IsDag h rank) :
    ∀ (fuel v : Nat) (nodes vp vq : List Nat), rank v < fuel →
      (∀ d, Reachable h v d → (d ∈ vp ↔ d ∈ vq)) →
      ∃ (nodes1 vp1 vq1 S : List Nat), topo_sort h fuel v (nodes, vp) = some (nodes1, vp1) ∧
        (if v ∈ vq then some (nodes, vq) else topo_sort_postmark h fuel v (nodes, vq)) =
          some (nodes1, vq1) ∧
        (∀ d, d ∈ vp1 ↔ d ∈ vp ∨ d ∈ S) ∧ (∀ d, d ∈ vq1 ↔ d ∈ vq ∨ d ∈ S) := by
  intro fuel
  induction fuel with
  | zero => intro v _ _ _ hlt; exact absurd hlt (Nat.not_lt_zero _)
  | succ fuel ih =>
    intro v nodes vp vq hlt hag
    by_cases hv : v ∈ vp
    · have hvq : v ∈ vq := (hag v Relation.ReflTransGen.refl).1 hv
      exact ⟨nodes, vp, vq, [], by simp [topo_sort, hv], by simp [hvq], by simp, by simp⟩
    · have hvq : v ∉ vq := fun hc => hv ((hag v Relation.ReflTransGen.refl).2 hc)
      obtain ⟨n1, vp1, vq1, S1, hpre1, hpost1, hvp1, hvq1⟩ :=
        postmark_loop h fuel (fun p => rank p < fuel) (fun p nodes vp vq hp => ih p nodes vp vq hp)
          (Scalar.getPrev h v) nodes (v :: vp) vq
          (fun p hp => lt_of_lt_of_le (hd v p hp) (Nat.lt_succ_iff.mp hlt))
          (by
            intro p hp d hpd
            have hne : d ≠ v := by
              intro hc
              rw [hc] at hpd
              exact absurd (hpd.rank_le hd) (not_le.mpr (hd _ p hp))
            rw [List.mem_cons, hag d (hpd.of_prev hp)]
            constructor
            · rintro (h1 | h1)
              · exact absurd h1 hne
              · exact h1
            · exact Or.inr)
      refine ⟨n1 ++ [v], vp1, v :: vq1, v :: S1, ?_, ?_, ?_, ?_⟩
      · simp only [topo_sort, hv, if_false, hpre1]
      · simp only [hvq, if_false, topo_sort_postmark, hpost1]
      · intro d
        rw [hvp1, List.mem_cons, List.mem_cons]
        tauto
      · intro d
        rw [List.mem_cons, hvq1, List.mem_cons]
        tauto

theorem clientState_reachable (h1 : Heap) (hres : clientState = some h1) :
    ReachableState h1 := by
  refine ReachableState.backward _ 3 2 h1 (ReachableState.setData _ 0 4
    (ReachableState.build _ (Build.mul_sd 0 2)
      (ReachableState.build _ (Build.create 3) ReachableState.empty ?_) ?_) ?_) ?_ hres
  · simp [Build.args]
  · simp [Build.args, Build.run, create_next, Heap.empty]
  · decide
  · decide

theorem mixedGraph_reach_le (n : Nat) (hn : Reachable mixedGraph.1 5 n) :
    n ∈ [0, 1, 2, 3, 4, 5] := by
  have hle : n ≤ 5 := hn.rank_le mixedGraph_wf.isDag
  simp only [List.mem_cons, List.mem_singleton, List.not_mem_nil, or_false]
  omega

/-! ## The claims -/

/-- C1: gradient correctness of `backward`. On a DAG whose nodes are leaves
or outputs of add, multiply, pow and relu and whose gradients are all 0, the
pass returns, and afterwards the gradient of every node `n` reachable from the
root is the chain-rule sum over all predecessor paths from the root to `n` of
the product of the local partials (`k` bounds the length of the paths and is
at least the rank of the root, so no path is left out); the root's own
gradient is 1. -/
theorem backward_chain_rule (h : Heap) (rank : Nat → Nat) (hd : IsDag h rank)
    (hb : ∀ n, BuiltNode h n) (hz : ∀ n, Scalar.getGrad h n = 0) (root fuel : Nat)
    (hfuel : rank root < fuel) :
    ∃ h1, Scalar.backward fuel h root = some h1 ∧
      (∀ n, Reachable h root n → ∀ k, rank root ≤ k →
        Scalar.getGrad h1 n = chainRule h k root n) ∧
      Scalar.getGrad h1 root = 1 := by
  obtain ⟨h1, hres1, hroot⟩ := backward_root h rank hd hb root fuel hfuel
  obtain ⟨l, hres, hnd, hpa, hmem⟩ := backward_eq h rank hd root fuel hfuel
  refine ⟨h1, hres1, ?_, hroot⟩
  intro n hn k hk
  have hh1 : h1 = runBackward (Scalar.setGrad h root 1) (root :: l) := by
    rw [hres] at hres1
    exact (Option.some.inj hres1).symm
  have hpot := runBackward_potential rank hd hb n (root :: l) (Scalar.setGrad h root 1)
    (SameGraph.setGrad h root 1) hnd hpa
  rw [if_pos ((hmem n).2 hn), ← hh1] at hpot
  have hfun : (fun m => Scalar.getGrad (Scalar.setGrad h root 1) m * chainRule h (rank m) m n) =
      (fun m => (if root = m then 1 else 0) * chainRule h (rank m) m n) := by
    funext m
    rw [getGrad_setGrad, hz m]
    by_cases hm : m = root
    · simp [hm]
    · have hm2 : root ≠ m := fun hc => hm hc.symm
      simp [hm, hm2]
  rw [hfun, sum_map_single (root :: l) hnd root (List.mem_cons_self _ _) 1] at hpot
  rw [← hpot, one_mul]
  exact chainRule_stable h rank hd n (rank root) k root (le_refl _) hk

/-- Instance of C1 on the graph `r = relu(pow(a * b + a, 2))` with `a = 2`,
`b = -3`: two paths lead from `r` to `a`, with products 24 and -8, and the
gradient of `a` after the pass is 16. -/
theorem backward_chain_rule_witness :
    mixedGraph.2 = (0, 1, 5) ∧
    pathsTo mixedGraph.1 0 5 5 = [[1, -8, 1, -3], [1, -8, 1]] ∧
    (Scalar.backward 6 mixedGraph.1 5).map (fun h1 => Scalar.getGrad h1 0) = some 16 ∧
    ∃ h1, Scalar.backward 6 mixedGraph.1 5 = some h1 ∧
      (∀ n, Reachable mixedGraph.1 5 n → ∀ k, id 5 ≤ k →
        Scalar.getGrad h1 n = chainRule mixedGraph.1 k 5 n) ∧
      Scalar.getGrad h1 5 = 1 :=
  ⟨by decide, by decide!, by decide!,
    backward_chain_rule mixedGraph.1 id mixedGraph_wf.isDag mixedGraph_wf.built
      mixedGraph_grad_zero 5 6 (by decide)⟩

/-- C2: on a DAG, `topo_sort` started with an empty output sequence and an
empty visited set returns a sequence in which every node reachable from the
root (the root included) occurs exactly once and no other node occurs. -/
theorem topo_sort_exactly_reachable (h : Heap) (rank : Nat → Nat) (hd : IsDag h rank)
    (root fuel : Nat) (hfuel : rank root < fuel) :
    ∃ nodes visited, topo_sort h fuel root ([], []) = some (nodes, visited) ∧
      Reachable h root root ∧
      (∀ n, Reachable h root n → nodes.count n = 1) ∧
      (∀ n, ¬ Reachable h root n → nodes.count n = 0) := by
  obtain ⟨nodes, visited, hres, hnd, _, hmem, _⟩ := topo_sort_root h rank hd root fuel hfuel
  refine ⟨nodes, visited, hres, Relation.ReflTransGen.refl, ?_, ?_⟩
  · intro n hn
    exact List.count_eq_one_of_mem hnd ((hmem n).2 hn)
  · intro n hn
    exact List.count_eq_zero_of_not_mem (fun hc => hn ((hmem n).1 hc))

/-- Instance of C2 on the graph `y = x * x`, where `x` occurs twice in the predecessor list of `y`. -/
theorem topo_sort_exactly_reachable_witness :
    ∃ nodes visited, topo_sort squareGraph.1 2 1 ([], []) = some (nodes, visited) ∧
      Reachable squareGraph.1 1 1 ∧
      (∀ n, Reachable squareGraph.1 1 n → nodes.count n = 1) ∧
      (∀ n, ¬ Reachable squareGraph.1 1 n → nodes.count n = 0) :=
  topo_sort_exactly_reachable squareGraph.1 id squareGraph_wf.isDag 1 2 (by decide)

/-- C3: on a DAG, in the sequence returned by `topo_sort` every predecessor of
a node stands at a strictly earlier position than the node and the root is the
last element; in the reversed sequence the root is first and every node stands
after each reachable node that has it as a predecessor. -/
theorem topo_sort_order (h : Heap) (rank : Nat → Nat) (hd : IsDag h rank)
    (root fuel : Nat) (hfuel : rank root < fuel) :
    ∃ nodes visited, topo_sort h fuel root ([], []) = some (nodes, visited) ∧
      (∀ (i n : Nat), nodes[i]? = some n → ∀ p ∈ Scalar.getPrev h n,
        ∃ j : Nat, j < i ∧ nodes[j]? = some p) ∧
      nodes.getLast? = some root ∧
      nodes.reverse.head? = some root ∧
      (∀ (j n : Nat), nodes.reverse[j]? = some n → ∀ q : Nat, Reachable h root q →
        n ∈ Scalar.getPrev h q → ∃ i : Nat, i < j ∧ nodes.reverse[i]? = some q) := by
  obtain ⟨nodes, visited, hres, hnd, hpb, hmem, l, hl⟩ := topo_sort_root h rank hd root fuel hfuel
  have hlast : nodes.getLast? = some root := by rw [hl]; exact List.getLast?_concat l
  refine ⟨nodes, visited, hres, ?_, hlast, by rw [List.head?_reverse]; exact hlast, ?_⟩
  · intro i n hi p hp
    obtain ⟨l1, l2, hsplit, hlen⟩ := getElem?_split hi
    obtain ⟨j, hj, hjp⟩ := mem_split_index n l2 (hpb l1 n l2 hsplit p hp)
    rw [hlen] at hj
    rw [← hsplit] at hjp
    exact ⟨j, hj, hjp⟩
  · intro j n hj q hq hnq
    have hqr : q ∈ nodes.reverse := List.mem_reverse.2 ((hmem q).2 hq)
    obtain ⟨l1, l2, hsplit⟩ := List.append_of_mem hqr
    have hn2 : n ∈ l2 := hpb.reverse l1 q l2 hsplit n hnq
    obtain ⟨k, hk⟩ := List.mem_iff_getElem?.1 hn2
    have hk2 : nodes.reverse[l1.length + 1 + k]? = some n := by
      rw [hsplit, List.getElem?_append_right (by omega)]
      have : l1.length + 1 + k - l1.length = k + 1 := by omega
      rw [this]
      simpa using hk
    have hjk : j = l1.length + 1 + k := nodup_index_unique (List.nodup_reverse.2 hnd) hj hk2
    refine ⟨l1.length, by omega, ?_⟩
    rw [hsplit, List.getElem?_append_right (le_refl _)]
    simp

/-- Instance of C3 on the graph `r = relu(pow(a * b + a, 2))`. -/
theorem topo_sort_order_witness :
    ∃ nodes visited, topo_sort mixedGraph.1 6 5 ([], []) = some (nodes, visited) ∧
      (∀ (i n : Nat), nodes[i]? = some n → ∀ p ∈ Scalar.getPrev mixedGraph.1 n,
        ∃ j : Nat, j < i ∧ nodes[j]? = some p) ∧
      nodes.getLast? = some 5 ∧
      nodes.reverse.head? = some 5 ∧
      (∀ (j n : Nat), nodes.reverse[j]? = some n → ∀ q : Nat, Reachable mixedGraph.1 5 q →
        n ∈ Scalar.getPrev mixedGraph.1 q → ∃ i : Nat, i < j ∧ nodes.reverse[i]? = some q) :=
  topo_sort_order mixedGraph.1 id mixedGraph_wf.isDag 5 6 (by decide)

/-- C4: shared subexpression. For a leaf `x` with gradient 0 and
`y = multiply(x, x)`, `backward(y)` returns and afterwards
`x.grad = 2 * x.value`. -/
theorem shared_square (h : Heap) (x : Nat) (hx : x < h.next) (hl : IsLeaf h x)
    (hg : Scalar.getGrad h x = 0) (fuel : Nat) (hf : 2 ≤ fuel) :
    ∃ h2, Scalar.backward fuel (op_mul h x x).1 (op_mul h x x).2 = some h2 ∧
      Scalar.getGrad h2 x = 2 * Scalar.getData h x := by
  obtain ⟨k, rfl⟩ : ∃ k, fuel = k + 2 := ⟨fuel - 2, by omega⟩
  have hna : x ≠ h.next := Nat.ne_of_lt hx
  have hna2 : h.next ≠ x := fun hc => hna hc.symm
  have hg1 : (h.cell x).grad = 0 := hg
  have hpa : Scalar.getPrev (op_mul h x x).1 x = [] := by
    simp [Scalar.getPrev, op_mul_cell, hna, hl.1]
  have hpo : Scalar.getPrev (op_mul h x x).1 h.next = [x, x] := by
    simp [Scalar.getPrev, op_mul_cell]
  have htopo : topo_sort (op_mul h x x).1 (k + 2) h.next ([], []) =
      some ([x, h.next], [x, h.next]) := by
    rw [topo_sort]
    simp [hpo, forPrev, topo_sort_leaf, hpa, hna, topo_sort]
  refine ⟨_, by simp only [Scalar.backward, op_mul_snd, htopo]; rfl, ?_⟩
  simp [runBackward, Scalar.setGrad, Heap.write, op_mul_cell, hna, hna2,
    hl.2, Closure.call, addGrad, Scalar.getGrad, Scalar.getData, hg1]
  ring

/-- Instance of C4 for `x = create(3)`. -/
theorem shared_square_witness :
    ∃ h2, Scalar.backward 2 (op_mul (Scalar.create Heap.empty 3).1 0 0).1
        (op_mul (Scalar.create Heap.empty 3).1 0 0).2 = some h2 ∧
      Scalar.getGrad h2 0 = 2 * Scalar.getData (Scalar.create Heap.empty 3).1 0 :=
  shared_square (Scalar.create Heap.empty 3).1 0 (by decide) ⟨rfl, rfl⟩ rfl 2 (le_refl 2)

/-- C5: the worked example of `example.cpp`. The pointers are `a = 0`, `b = 1`,
`g = 40`; the forward value of `g` is 2421/98 = 24.70408 to five decimals and its
gradient before the pass is 0; `backward(g)` returns and afterwards the gradient
of `a` is 47620/343 = 138.83382 and that of `b` is 221433/343 = 645.57726, each
to five decimals. -/
theorem example_cpp (fuel : Nat) (hf : 41 ≤ fuel) :
    exampleGraph.2 = (0, 1, 40) ∧
    Scalar.getData exampleGraph.1 40 = 2421 / 98 ∧
    |Scalar.getData exampleGraph.1 40 - 24.70408| < 0.000005 ∧
    Scalar.getGrad exampleGraph.1 40 = 0 ∧
    ∃ h1, Scalar.backward fuel exampleGraph.1 40 = some h1 ∧
      Scalar.getGrad h1 0 = 47620 / 343 ∧ |Scalar.getGrad h1 0 - 138.83382| < 0.000005 ∧
      Scalar.getGrad h1 1 = 221433 / 343 ∧ |Scalar.getGrad h1 1 - 645.57726| < 0.000005 := by
  have hrun : ∃ h1, Scalar.backward 41 exampleGraph.1 40 = some h1 ∧
      Scalar.getGrad h1 0 = 47620 / 343 ∧ Scalar.getGrad h1 1 = 221433 / 343 := by
    have h0 : (Scalar.backward 41 exampleGraph.1 40).map
        (fun h1 => (Scalar.getGrad h1 0, Scalar.getGrad h1 1)) =
        some (47620 / 343, 221433 / 343) := by decide!
    cases hb : Scalar.backward 41 exampleGraph.1 40 with
    | none => rw [hb] at h0; simp at h0
    | some h1 =>
      rw [hb] at h0
      simp only [Option.map_some', Option.some.injEq, Prod.mk.injEq] at h0
      exact ⟨h1, rfl, h0.1, h0.2⟩
  obtain ⟨h1, hres, hga, hgb⟩ := hrun
  have hd : Scalar.getData exampleGraph.1 40 = 2421 / 98 := by decide!
  refine ⟨by decide!, hd, ?_, by decide!, h1, backward_mono _ 41 fuel 40 h1 hf hres, hga, ?_, hgb, ?_⟩
  · rw [hd]; norm_num [abs_lt]
  · rw [hga]; norm_num [abs_lt]
  · rw [hgb]; norm_num [abs_lt]

/-- Instance of C5 with a recursion bound of 64. -/
theorem example_cpp_witness :
    exampleGraph.2 = (0, 1, 40) ∧
    Scalar.getData exampleGraph.1 40 = 2421 / 98 ∧
    |Scalar.getData exampleGraph.1 40 - 24.70408| < 0.000005 ∧
    Scalar.getGrad exampleGraph.1 40 = 0 ∧
    ∃ h1, Scalar.backward 64 exampleGraph.1 40 = some h1 ∧
      Scalar.getGrad h1 0 = 47620 / 343 ∧ |Scalar.getGrad h1 0 - 138.83382| < 0.000005 ∧
      Scalar.getGrad h1 1 = 221433 / 343 ∧ |Scalar.getGrad h1 1 - 645.57726| < 0.000005 :=
  example_cpp 64 (by decide)

/-- C6 (as stated) fails: in the graph `x = create(3); y = relu(x); r = relu(y)`
all gradients are 0, `x` is a leaf reachable from `r`, its gradient is 1 after
one `backward(r)` and 3, not 2, after a second one; and for a root that is
itself a leaf the gradient is 1 after the first call and 1 after the second. -/
theorem backward_twice_not_double :
    chainGraph.2 = (0, 2) ∧
    (∀ n, Scalar.getGrad chainGraph.1 n = 0) ∧ IsLeaf chainGraph.1 0 ∧
    Reachable chainGraph.1 2 0 ∧
    (Scalar.backward 3 chainGraph.1 2).map (fun h1 => Scalar.getGrad h1 0) = some 1 ∧
    ((Scalar.backward 3 chainGraph.1 2).bind (fun h1 => Scalar.backward 3 h1 2)).map
      (fun h2 => Scalar.getGrad h2 0) = some 3 ∧
    (Scalar.backward 1 (Scalar.create Heap.empty 3).1 0).map (fun h1 => Scalar.getGrad h1 0)
      = some 1 ∧
    ((Scalar.backward 1 (Scalar.create Heap.empty 3).1 0).bind
      (fun h1 => Scalar.backward 1 h1 0)).map (fun h2 => Scalar.getGrad h2 0) = some 1 := by
  refine ⟨by decide, ?_, ?_, ?_, by decide!, by decide!, by decide!, by decide!⟩
  · intro n
    simp only [chainGraph, Scalar.getGrad, relu_cell, create_fst_cell]
    split_ifs <;> rfl
  · exact ⟨by decide!, by decide!⟩
  · have h1 : (1 : Nat) ∈ Scalar.getPrev chainGraph.1 2 := by decide!
    have h2 : (0 : Nat) ∈ Scalar.getPrev chainGraph.1 1 := by decide!
    exact Relation.ReflTransGen.head h1 (Relation.ReflTransGen.head h2 Relation.ReflTransGen.refl)

/-- C6 (amended): accumulation. On a DAG built by the operations with all
gradients 0, two calls of `backward` on the same root without a reset in
between both return and the root's gradient is 1 after each. After the second
call the gradient of every reachable node `t` is the sum over the reachable
nodes `m` (the list `L` holds each once) of the gradient `m` has after the
first call times the chain-rule derivative of `m` with respect to `t`; and for
every node other than the root whose only consumers reachable from the root
are the root itself it is exactly double the gradient after the first call. -/
theorem backward_twice (h : Heap) (rank : Nat → Nat) (hd : IsDag h rank)
    (hb : ∀ n, BuiltNode h n) (hz : ∀ n, Scalar.getGrad h n = 0) (root fuel : Nat)
    (hfuel : rank root < fuel) :
    ∃ (h1 h2 : Heap) (L : List Nat),
      Scalar.backward fuel h root = some h1 ∧ Scalar.backward fuel h1 root = some h2 ∧
      Scalar.getGrad h1 root = 1 ∧ Scalar.getGrad h2 root = 1 ∧
      L.Nodup ∧ (∀ n, n ∈ L ↔ Reachable h root n) ∧
      (∀ t, Reachable h root t → Scalar.getGrad h2 t =
        (L.map (fun m => Scalar.getGrad h1 m * chainRule h (rank m) m t)).sum) ∧
      ∀ t, t ≠ root → (∀ q, Reachable h root q → t ∈ Scalar.getPrev h q → q = root) →
        Scalar.getGrad h2 t = 2 * Scalar.getGrad h1 t := by
  obtain ⟨h1, hres1, hroot1⟩ := backward_root h rank hd hb root fuel hfuel
  have hs := backward_sameGraph h fuel root h1 hres1
  have hd1 : IsDag h1 rank := hs.keepsDag hd
  have hb1 : ∀ n, BuiltNode h1 n := fun n => hs.builtNode (hb n)
  obtain ⟨h2, hres2, hroot2⟩ := backward_root h1 rank hd1 hb1 root fuel hfuel
  obtain ⟨h2b, L, hres2b, hnd, hmem, hsum⟩ := backward_general h1 rank hd1 hb1 root fuel hfuel
  rw [hres2] at hres2b
  obtain rfl := Option.some.inj hres2b
  refine ⟨h1, h2, L, hres1, hres2, hroot1, hroot2, hnd,
    fun n => (hmem n).trans (hs.reachable root n), ?_, ?_⟩
  · intro t ht
    rw [hsum t ((hs.reachable root t).2 ht)]
    congr 1
    apply List.map_congr_left
    intro m _
    rw [hs.chainRule]
    by_cases hm : m = root
    · rw [if_pos hm, hm, hroot1]
    · rw [if_neg hm]
  · intro t ht hcons
    obtain ⟨h1a, hres1a, hg1⟩ := backward_direct_operand h rank hd hb root fuel hfuel t ht hcons
    obtain ⟨h2a, hres2a, hg2⟩ := backward_direct_operand h1 rank hd1 hb1 root fuel hfuel t ht
      (fun q hq htq => hcons q ((hs.reachable root q).1 hq) (by rw [← hs.getPrev]; exact htq))
    rw [hres1] at hres1a
    rw [hres2] at hres2a
    obtain rfl := Option.some.inj hres1a
    obtain rfl := Option.some.inj hres2a
    rw [hg2, hs.edgeWeight, hg1, hz t]
    ring

/-- Instance of the amended C6 on the graph `y = x * x`. -/
theorem backward_twice_witness :
    ∃ (h1 h2 : Heap) (L : List Nat),
      Scalar.backward 2 squareGraph.1 1 = some h1 ∧ Scalar.backward 2 h1 1 = some h2 ∧
      Scalar.getGrad h1 1 = 1 ∧ Scalar.getGrad h2 1 = 1 ∧
      L.Nodup ∧ (∀ n, n ∈ L ↔ Reachable squareGraph.1 1 n) ∧
      (∀ t, Reachable squareGraph.1 1 t → Scalar.getGrad h2 t =
        (L.map (fun m => Scalar.getGrad h1 m * chainRule squareGraph.1 (id m) m t)).sum) ∧
      ∀ t, t ≠ 1 →
        (∀ q, Reachable squareGraph.1 1 q → t ∈ Scalar.getPrev squareGraph.1 q → q = 1) →
        Scalar.getGrad h2 t = 2 * Scalar.getGrad h1 t :=
  backward_twice squareGraph.1 id squareGraph_wf.isDag squareGraph_wf.built
    squareGraph_grad_zero 1 2 (by decide)

/-- C7: root seeding. On a DAG built by the operations, whatever gradients the
nodes hold beforehand (the root included), the pass returns and the root's
gradient afterwards is exactly 1: it is overwritten by the seed and no lambda
run during the pass adds to it. -/
theorem backward_seeds_root (h : Heap) (rank : Nat → Nat) (hd : IsDag h rank)
    (hb : ∀ n, BuiltNode h n) (root fuel : Nat) (hfuel : rank root < fuel) :
    Scalar.getGrad (Scalar.setGrad h root 1) root = 1 ∧
    ∃ h1, Scalar.backward fuel h root = some h1 ∧ Scalar.getGrad h1 root = 1 := by
  refine ⟨?_, backward_root h rank hd hb root fuel hfuel⟩
  rw [getGrad_setGrad, if_pos rfl]

/-- Instance of C7 on the graph `r = relu(pow(a * b + a, 2))` whose root holds the gradient 7 beforehand. -/
theorem backward_seeds_root_witness :
    Scalar.getGrad (Scalar.setGrad mixedGraph.1 5 7) 5 = 7 ∧
    Scalar.getGrad (Scalar.setGrad (Scalar.setGrad mixedGraph.1 5 7) 5 1) 5 = 1 ∧
    ∃ h1, Scalar.backward 6 (Scalar.setGrad mixedGraph.1 5 7) 5 = some h1 ∧
      Scalar.getGrad h1 5 = 1 :=
  ⟨by decide!, backward_seeds_root (Scalar.setGrad mixedGraph.1 5 7) id
    ((SameGraph.setGrad mixedGraph.1 5 7).keepsDag mixedGraph_wf.isDag)
    (fun n => (SameGraph.setGrad mixedGraph.1 5 7).builtNode (mixedGraph_wf.built n))
    5 6 (by decide)⟩

/-- C8: ReLU gating. For a leaf `a` with gradient 0 and `o = relu(a)`: the
value of `o` is `max(0, a.value)`; `backward(o)` returns and leaves `a.grad = 1`
when `a.value > 0` and `a.grad = 0` when `a.value <= 0`; and the output value
is positive exactly when the input value is. -/
theorem relu_gating (h : Heap) (a : Nat) (ha : a < h.next) (hleaf : IsLeaf h a)
    (hg : Scalar.getGrad h a = 0) (fuel : Nat) (hf : 2 ≤ fuel) :
    Scalar.getData (Scalar.relu h a).1 (Scalar.relu h a).2 = max 0 (Scalar.getData h a) ∧
    (∃ h2, Scalar.backward fuel (Scalar.relu h a).1 (Scalar.relu h a).2 = some h2 ∧
      (Scalar.getData h a > 0 → Scalar.getGrad h2 a = 1) ∧
      (Scalar.getData h a ≤ 0 → Scalar.getGrad h2 a = 0)) ∧
    (Scalar.getData (Scalar.relu h a).1 (Scalar.relu h a).2 > 0 ↔ Scalar.getData h a > 0) := by
  obtain ⟨k, rfl⟩ : ∃ k, fuel = k + 2 := ⟨fuel - 2, by omega⟩
  have hne : a ≠ h.next := Nat.ne_of_lt ha
  have hne2 : h.next ≠ a := fun hc => hne hc.symm
  have hg1 : (h.cell a).grad = 0 := hg
  have hdata : Scalar.getData (Scalar.relu h a).1 (Scalar.relu h a).2 =
      if Scalar.getData h a ≤ 0 then 0 else Scalar.getData h a := by
    simp [Scalar.getData, relu_cell, relu_snd]
  have hpa : Scalar.getPrev (Scalar.relu h a).1 a = [] := by
    simp [Scalar.getPrev, relu_cell, hne, hleaf.1]
  have hpo : Scalar.getPrev (Scalar.relu h a).1 h.next = [a] := by
    simp [Scalar.getPrev, relu_cell]
  have htopo : topo_sort (Scalar.relu h a).1 (k + 2) h.next ([], []) =
      some ([a, h.next], [a, h.next]) := by
    rw [topo_sort]
    simp [hpo, forPrev, topo_sort_leaf, hpa, hne]
  refine ⟨?_, ⟨_, by simp only [Scalar.backward, relu_snd, htopo]; rfl, ?_, ?_⟩, ?_⟩
  · rw [hdata]
    by_cases hle : Scalar.getData h a ≤ 0
    · simp [hle]
    · simp [hle, le_of_lt (not_le.1 hle)]
  · intro hpos
    have hpos1 : 0 < (h.cell a).data := hpos
    simp [runBackward, Scalar.setGrad, Heap.write, relu_cell, hne, hne2,
      hleaf.2, Closure.call, addGrad, Scalar.getGrad, Scalar.getData, hg1, hpos1, not_le.2 hpos1]
  · intro hle
    have hle1 : (h.cell a).data ≤ 0 := hle
    simp [runBackward, Scalar.setGrad, Heap.write, relu_cell, hne, hne2,
      hleaf.2, Closure.call, addGrad, Scalar.getGrad, Scalar.getData, hg1, hle1]
  · rw [hdata]
    by_cases hle : Scalar.getData h a ≤ 0
    · simp [hle, not_lt.2 hle]
    · simp [hle, not_le.1 hle]

/-- Instance of C8 for `a = create(-3)`. -/
theorem relu_gating_witness :
    Scalar.getData (Scalar.relu (Scalar.create Heap.empty (-3)).1 0).1
        (Scalar.relu (Scalar.create Heap.empty (-3)).1 0).2 =
      max 0 (Scalar.getData (Scalar.create Heap.empty (-3)).1 0) ∧
    (∃ h2, Scalar.backward 2 (Scalar.relu (Scalar.create Heap.empty (-3)).1 0).1
        (Scalar.relu (Scalar.create Heap.empty (-3)).1 0).2 = some h2 ∧
      (Scalar.getData (Scalar.create Heap.empty (-3)).1 0 > 0 → Scalar.getGrad h2 0 = 1) ∧
      (Scalar.getData (Scalar.create Heap.empty (-3)).1 0 ≤ 0 → Scalar.getGrad h2 0 = 0)) ∧
    (Scalar.getData (Scalar.relu (Scalar.create Heap.empty (-3)).1 0).1
        (Scalar.relu (Scalar.create Heap.empty (-3)).1 0).2 > 0 ↔
      Scalar.getData (Scalar.create Heap.empty (-3)).1 0 > 0) :=
  relu_gating (Scalar.create Heap.empty (-3)).1 0 (by decide) ⟨rfl, rfl⟩ rfl 2 (le_refl 2)

/-- C9: product rule. For distinct leaves `a` and `b` with gradient 0 and
`o = multiply(a, b)`: the value of `o` is `a.value * b.value`, `backward(o)`
returns, and afterwards `a.grad = b.value` and `b.grad = a.value`. -/
theorem product_rule (h : Heap) (a b : Nat) (ha : a < h.next) (hb : b < h.next) (hab : a ≠ b)
    (hla : IsLeaf h a) (hlb : IsLeaf h b)
    (hga : Scalar.getGrad h a = 0) (hgb : Scalar.getGrad h b = 0) (fuel : Nat) (hf : 2 ≤ fuel) :
    Scalar.getData (op_mul h a b).1 (op_mul h a b).2 = Scalar.getData h a * Scalar.getData h b ∧
    ∃ h2, Scalar.backward fuel (op_mul h a b).1 (op_mul h a b).2 = some h2 ∧
      Scalar.getGrad h2 a = Scalar.getData h b ∧ Scalar.getGrad h2 b = Scalar.getData h a := by
  obtain ⟨k, rfl⟩ : ∃ k, fuel = k + 2 := ⟨fuel - 2, by omega⟩
  have hna : a ≠ h.next := Nat.ne_of_lt ha
  have hna2 : h.next ≠ a := fun hc => hna hc.symm
  have hnb : b ≠ h.next := Nat.ne_of_lt hb
  have hnb2 : h.next ≠ b := fun hc => hnb hc.symm
  have hba : b ≠ a := fun hc => hab hc.symm
  have hga1 : (h.cell a).grad = 0 := hga
  have hgb1 : (h.cell b).grad = 0 := hgb
  have hpa : Scalar.getPrev (op_mul h a b).1 a = [] := by
    simp [Scalar.getPrev, op_mul_cell, hna, hla.1]
  have hpb : Scalar.getPrev (op_mul h a b).1 b = [] := by
    simp [Scalar.getPrev, op_mul_cell, hnb, hlb.1]
  have hpo : Scalar.getPrev (op_mul h a b).1 h.next = [a, b] := by
    simp [Scalar.getPrev, op_mul_cell]
  have htopo : topo_sort (op_mul h a b).1 (k + 2) h.next ([], []) =
      some ([a, b, h.next], [b, a, h.next]) := by
    rw [topo_sort]
    simp [hpo, forPrev, topo_sort_leaf, hpa, hpb, hna, hnb, hba]
  refine ⟨by simp [Scalar.getData, op_mul_cell, op_mul_snd],
    _, by simp only [Scalar.backward, op_mul_snd, htopo]; rfl, ?_, ?_⟩
  · simp [runBackward, Scalar.setGrad, Heap.write, op_mul_cell, hna, hna2, hnb, hnb2, hab, hba,
      hla.2, hlb.2, Closure.call, addGrad, Scalar.getGrad, Scalar.getData, hga1, hgb1]
  · simp [runBackward, Scalar.setGrad, Heap.write, op_mul_cell, hna, hna2, hnb, hnb2, hab, hba,
      hla.2, hlb.2, Closure.call, addGrad, Scalar.getGrad, Scalar.getData, hga1, hgb1]

/-- Instance of C9 for `a = create(2)`, `b = create(5)`. -/
theorem product_rule_witness :
    Scalar.getData (op_mul (Scalar.create (Scalar.create Heap.empty 2).1 5).1 0 1).1
        (op_mul (Scalar.create (Scalar.create Heap.empty 2).1 5).1 0 1).2 =
      Scalar.getData (Scalar.create (Scalar.create Heap.empty 2).1 5).1 0 *
        Scalar.getData (Scalar.create (Scalar.create Heap.empty 2).1 5).1 1 ∧
    ∃ h2, Scalar.backward 2 (op_mul (Scalar.create (Scalar.create Heap.empty 2).1 5).1 0 1).1
        (op_mul (Scalar.create (Scalar.create Heap.empty 2).1 5).1 0 1).2 = some h2 ∧
      Scalar.getGrad h2 0 = Scalar.getData (Scalar.create (Scalar.create Heap.empty 2).1 5).1 1 ∧
      Scalar.getGrad h2 1 = Scalar.getData (Scalar.create (Scalar.create Heap.empty 2).1 5).1 0 :=
  product_rule (Scalar.create (Scalar.create Heap.empty 2).1 5).1 0 1 (by decide) (by decide)
    (by decide) ⟨rfl, rfl⟩ ⟨rfl, rfl⟩ rfl rfl 2 (le_refl 2)

/-- C10: additivity. For distinct leaves `a` and `b` with gradient 0 and
`o = add(a, b)`: the value of `o` is `a.value + b.value`, `backward(o)` returns,
and afterwards `a.grad = b.grad = 1`. -/
theorem additivity (h : Heap) (a b : Nat) (ha : a < h.next) (hb : b < h.next) (hab : a ≠ b)
    (hla : IsLeaf h a) (hlb : IsLeaf h b)
    (hga : Scalar.getGrad h a = 0) (hgb : Scalar.getGrad h b = 0) (fuel : Nat) (hf : 2 ≤ fuel) :
    Scalar.getData (op_add h a b).1 (op_add h a b).2 = Scalar.getData h a + Scalar.getData h b ∧
    ∃ h2, Scalar.backward fuel (op_add h a b).1 (op_add h a b).2 = some h2 ∧
      Scalar.getGrad h2 a = 1 ∧ Scalar.getGrad h2 b = 1 := by
  obtain ⟨k, rfl⟩ : ∃ k, fuel = k + 2 := ⟨fuel - 2, by omega⟩
  have hna : a ≠ h.next := Nat.ne_of_lt ha
  have hna2 : h.next ≠ a := fun hc => hna hc.symm
  have hnb : b ≠ h.next := Nat.ne_of_lt hb
  have hnb2 : h.next ≠ b := fun hc => hnb hc.symm
  have hba : b ≠ a := fun hc => hab hc.symm
  have hga1 : (h.cell a).grad = 0 := hga
  have hgb1 : (h.cell b).grad = 0 := hgb
  have hpa : Scalar.getPrev (op_add h a b).1 a = [] := by
    simp [Scalar.getPrev, op_add_cell, hna, hla.1]
  have hpb : Scalar.getPrev (op_add h a b).1 b = [] := by
    simp [Scalar.getPrev, op_add_cell, hnb, hlb.1]
  have hpo : Scalar.getPrev (op_add h a b).1 h.next = [a, b] := by
    simp [Scalar.getPrev, op_add_cell]
  have htopo : topo_sort (op_add h a b).1 (k + 2) h.next ([], []) =
      some ([a, b, h.next], [b, a, h.next]) := by
    rw [topo_sort]
    simp [hpo, forPrev, topo_sort_leaf, hpa, hpb, hna, hnb, hba]
  refine ⟨by simp [Scalar.getData, op_add_cell, op_add_snd],
    _, by simp only [Scalar.backward, op_add_snd, htopo]; rfl, ?_, ?_⟩
  · simp [runBackward, Scalar.setGrad, Heap.write, op_add_cell, hna, hna2, hnb, hnb2, hab, hba,
      hla.2, hlb.2, Closure.call, addGrad, Scalar.getGrad, Scalar.getData, hga1, hgb1]
  · simp [runBackward, Scalar.setGrad, Heap.write, op_add_cell, hna, hna2, hnb, hnb2, hab, hba,
      hla.2, hlb.2, Closure.call, addGrad, Scalar.getGrad, Scalar.getData, hga1, hgb1]

/-- Instance of C10 for `a = create(2)`, `b = create(5)`. -/
theorem additivity_witness :
    Scalar.getData (op_add (Scalar.create (Scalar.create Heap.empty 2).1 5).1 0 1).1
        (op_add (Scalar.create (Scalar.create Heap.empty 2).1 5).1 0 1).2 =
      Scalar.getData (Scalar.create (Scalar.create Heap.empty 2).1 5).1 0 +
        Scalar.getData (Scalar.create (Scalar.create Heap.empty 2).1 5).1 1 ∧
    ∃ h2, Scalar.backward 2 (op_add (Scalar.create (Scalar.create Heap.empty 2).1 5).1 0 1).1
        (op_add (Scalar.create (Scalar.create Heap.empty 2).1 5).1 0 1).2 = some h2 ∧
      Scalar.getGrad h2 0 = 1 ∧ Scalar.getGrad h2 1 = 1 :=
  additivity (Scalar.create (Scalar.create Heap.empty 2).1 5).1 0 1 (by decide) (by decide)
    (by decide) ⟨rfl, rfl⟩ ⟨rfl, rfl⟩ rfl rfl 2 (le_refl 2)

/-! ## The claims on derived operations, invariants and frames -/

/-- C11: forward values of the derived and mixed operations. For nodes `a`,
`b` that exist and every scalar `v`: negate gives `-a.value`, subtract gives
`a.value - b.value`, `v - a` gives `v - a.value`; with a nonzero divisor, divide
gives `a.value / b.value`, `a / v` gives `a.value / v` and `v / b` gives
`v / b.value`; `a + v` and `v + a` give `a.value + v`, `a * v` and `v * a` give
`a.value * v`. -/
theorem derived_forward_values (h : Heap) (a b : Nat) (v : ℚ) (ha : a < h.next)
    (hb : b < h.next) :
    Scalar.getData (op_neg h a).1 (op_neg h a).2 = -Scalar.getData h a ∧
    Scalar.getData (op_sub h a b).1 (op_sub h a b).2 = Scalar.getData h a - Scalar.getData h b ∧
    Scalar.getData (op_sub_ds h v a).1 (op_sub_ds h v a).2 = v - Scalar.getData h a ∧
    (Scalar.getData h b ≠ 0 →
      Scalar.getData (op_div h a b).1 (op_div h a b).2 = Scalar.getData h a / Scalar.getData h b) ∧
    (v ≠ 0 → Scalar.getData (op_div_sd h a v).1 (op_div_sd h a v).2 = Scalar.getData h a / v) ∧
    (Scalar.getData h b ≠ 0 →
      Scalar.getData (op_div_ds h v b).1 (op_div_ds h v b).2 = v / Scalar.getData h b) ∧
    Scalar.getData (op_add_sd h a v).1 (op_add_sd h a v).2 = Scalar.getData h a + v ∧
    Scalar.getData (op_add_ds h v a).1 (op_add_ds h v a).2 = Scalar.getData h a + v ∧
    Scalar.getData (op_mul_sd h a v).1 (op_mul_sd h a v).2 = Scalar.getData h a * v ∧
    Scalar.getData (op_mul_ds h v a).1 (op_mul_ds h v a).2 = Scalar.getData h a * v := by
  have hna : a ≠ h.next := Nat.ne_of_lt ha
  have hnb : b ≠ h.next := Nat.ne_of_lt hb
  have ha1 : a < (Scalar.create h v).1.next := by rw [create_next]; omega
  have hb1 : b < (Scalar.create h v).1.next := by rw [create_next]; omega
  have hv1 : (Scalar.create h v).2 < (Scalar.create h v).1.next := by
    rw [create_next, create_snd]; omega
  refine ⟨getData_op_neg h a ha, getData_op_sub h a b ha hb, ?_, fun _ => getData_op_div h a b ha,
    fun _ => ?_, fun _ => ?_, ?_, ?_, ?_, ?_⟩
  · show Scalar.getData (op_sub (Scalar.create h v).1 (Scalar.create h v).2 a).1
      (op_sub (Scalar.create h v).1 (Scalar.create h v).2 a).2 = _
    rw [getData_op_sub _ _ _ hv1 ha1, create_snd, getData_create_new, getData_create_old h v a hna]
  · show Scalar.getData (op_div (Scalar.create h v).1 a (Scalar.create h v).2).1
      (op_div (Scalar.create h v).1 a (Scalar.create h v).2).2 = _
    rw [getData_op_div _ _ _ ha1, create_snd, getData_create_new, getData_create_old h v a hna]
  · show Scalar.getData (op_div (Scalar.create h v).1 (Scalar.create h v).2 b).1
      (op_div (Scalar.create h v).1 (Scalar.create h v).2 b).2 = _
    rw [getData_op_div _ _ _ hv1, create_snd, getData_create_new, getData_create_old h v b hnb]
  · show Scalar.getData (op_add (Scalar.create h v).1 a (Scalar.create h v).2).1
      (op_add (Scalar.create h v).1 a (Scalar.create h v).2).2 = _
    rw [getData_op_add_new, create_snd, getData_create_new, getData_create_old h v a hna]
  · show Scalar.getData (op_add (Scalar.create h v).1 a (Scalar.create h v).2).1
      (op_add (Scalar.create h v).1 a (Scalar.create h v).2).2 = _
    rw [getData_op_add_new, create_snd, getData_create_new, getData_create_old h v a hna]
  · show Scalar.getData (op_mul (Scalar.create h v).1 a (Scalar.create h v).2).1
      (op_mul (Scalar.create h v).1 a (Scalar.create h v).2).2 = _
    rw [getData_op_mul_new, create_snd, getData_create_new, getData_create_old h v a hna]
  · show Scalar.getData (op_mul (Scalar.create h v).1 a (Scalar.create h v).2).1
      (op_mul (Scalar.create h v).1 a (Scalar.create h v).2).2 = _
    rw [getData_op_mul_new, create_snd, getData_create_new, getData_create_old h v a hna]

/-- Instance of C11 for `a = create(2)`, `b = create(5)` and `v = 3`. -/
theorem derived_forward_values_witness :
    Scalar.getData (op_neg twoLeaves 0).1 (op_neg twoLeaves 0).2 = -Scalar.getData twoLeaves 0 ∧
    Scalar.getData (op_sub twoLeaves 0 1).1 (op_sub twoLeaves 0 1).2 =
      Scalar.getData twoLeaves 0 - Scalar.getData twoLeaves 1 ∧
    Scalar.getData (op_sub_ds twoLeaves 3 0).1 (op_sub_ds twoLeaves 3 0).2 =
      3 - Scalar.getData twoLeaves 0 ∧
    (Scalar.getData twoLeaves 1 ≠ 0 →
      Scalar.getData (op_div twoLeaves 0 1).1 (op_div twoLeaves 0 1).2 =
        Scalar.getData twoLeaves 0 / Scalar.getData twoLeaves 1) ∧
    ((3 : ℚ) ≠ 0 → Scalar.getData (op_div_sd twoLeaves 0 3).1 (op_div_sd twoLeaves 0 3).2 =
      Scalar.getData twoLeaves 0 / 3) ∧
    (Scalar.getData twoLeaves 1 ≠ 0 →
      Scalar.getData (op_div_ds twoLeaves 3 1).1 (op_div_ds twoLeaves 3 1).2 =
        3 / Scalar.getData twoLeaves 1) ∧
    Scalar.getData (op_add_sd twoLeaves 0 3).1 (op_add_sd twoLeaves 0 3).2 =
      Scalar.getData twoLeaves 0 + 3 ∧
    Scalar.getData (op_add_ds twoLeaves 3 0).1 (op_add_ds twoLeaves 3 0).2 =
      Scalar.getData twoLeaves 0 + 3 ∧
    Scalar.getData (op_mul_sd twoLeaves 0 3).1 (op_mul_sd twoLeaves 0 3).2 =
      Scalar.getData twoLeaves 0 * 3 ∧
    Scalar.getData (op_mul_ds twoLeaves 3 0).1 (op_mul_ds twoLeaves 3 0).2 =
      Scalar.getData twoLeaves 0 * 3 :=
  derived_forward_values twoLeaves 0 1 3 (by decide) (by decide)

/-- C12: power rule. For a leaf `a` with gradient 0 and nonzero value and an
integer exponent `k`, `o = pow(a, k)` has the value `a.value ^ k` and the single
predecessor `a`; `backward(o)` returns and afterwards
`a.grad = k * a.value ^ (k - 1)`. -/
theorem power_rule (h : Heap) (a : Nat) (k : ℤ) (ha : a < h.next) (hleaf : IsLeaf h a)
    (hg : Scalar.getGrad h a = 0) (_hnz : Scalar.getData h a ≠ 0) (fuel : Nat) (hf : 2 ≤ fuel) :
    Scalar.getData (pow h a k).1 (pow h a k).2 = Scalar.getData h a ^ k ∧
    Scalar.getPrev (pow h a k).1 (pow h a k).2 = [a] ∧
    ∃ h2, Scalar.backward fuel (pow h a k).1 (pow h a k).2 = some h2 ∧
      Scalar.getGrad h2 a = (k : ℚ) * Scalar.getData h a ^ (k - 1) := by
  obtain ⟨j, rfl⟩ : ∃ j, fuel = j + 2 := ⟨fuel - 2, by omega⟩
  have hne : a ≠ h.next := Nat.ne_of_lt ha
  have hne2 : h.next ≠ a := fun hc => hne hc.symm
  have hg1 : (h.cell a).grad = 0 := hg
  have hpa : Scalar.getPrev (pow h a k).1 a = [] := by
    simp [Scalar.getPrev, pow_cell, hne, hleaf.1]
  have hpo : Scalar.getPrev (pow h a k).1 h.next = [a] := by
    simp [Scalar.getPrev, pow_cell]
  have htopo : topo_sort (pow h a k).1 (j + 2) h.next ([], []) =
      some ([a, h.next], [a, h.next]) := by
    rw [topo_sort]
    simp [hpo, forPrev, topo_sort_leaf, hpa, hne]
  refine ⟨by simp [Scalar.getData, pow_cell, pow_snd], by rw [pow_snd]; exact hpo,
    _, by simp only [Scalar.backward, pow_snd, htopo]; rfl, ?_⟩
  simp [runBackward, Scalar.setGrad, Heap.write, pow_cell, hne, hne2,
    hleaf.2, Closure.call, addGrad, Scalar.getGrad, Scalar.getData, hg1]

/-- Instance of C12 for `a = create(3)` and the exponent -2. -/
theorem power_rule_witness :
    Scalar.getData (pow (Scalar.create Heap.empty 3).1 0 (-2)).1
        (pow (Scalar.create Heap.empty 3).1 0 (-2)).2 =
      Scalar.getData (Scalar.create Heap.empty 3).1 0 ^ (-2 : ℤ) ∧
    Scalar.getPrev (pow (Scalar.create Heap.empty 3).1 0 (-2)).1
        (pow (Scalar.create Heap.empty 3).1 0 (-2)).2 = [0] ∧
    ∃ h2, Scalar.backward 2 (pow (Scalar.create Heap.empty 3).1 0 (-2)).1
        (pow (Scalar.create Heap.empty 3).1 0 (-2)).2 = some h2 ∧
      Scalar.getGrad h2 0 =
        ((-2 : ℤ) : ℚ) * Scalar.getData (Scalar.create Heap.empty 3).1 0 ^ ((-2 : ℤ) - 1) :=
  power_rule (Scalar.create Heap.empty 3).1 0 (-2) (by decide) ⟨rfl, rfl⟩ rfl (by decide!) 2
    (le_refl 2)

/-- C13: acyclicity invariant. In every state a client reaches: `create`
records no predecessor, `pow` and `relu` record their operand, `add` and
`multiply` record their two operands in order; after any constructing call on
existing nodes every new node has only older nodes as predecessors and every
existing node keeps its predecessor list; `setData`, `setGrad` and `backward`
change no predecessor list; every predecessor is older than its node, which
exists; and no node reaches itself by a non-empty predecessor path. -/
theorem acyclicity_invariant (h : Heap) (hr : ReachableState h) :
    (∀ v, Scalar.getPrev (Scalar.create h v).1 (Scalar.create h v).2 = []) ∧
    (∀ a k, Scalar.getPrev (pow h a k).1 (pow h a k).2 = [a]) ∧
    (∀ a, Scalar.getPrev (Scalar.relu h a).1 (Scalar.relu h a).2 = [a]) ∧
    (∀ a b, Scalar.getPrev (op_add h a b).1 (op_add h a b).2 = [a, b]) ∧
    (∀ a b, Scalar.getPrev (op_mul h a b).1 (op_mul h a b).2 = [a, b]) ∧
    (∀ c : Build, (∀ p ∈ c.args, p < h.next) →
      (∀ n, h.next ≤ n → ∀ p ∈ Scalar.getPrev (c.run h).1 n, p < n) ∧
      (∀ n, n < h.next → Scalar.getPrev (c.run h).1 n = Scalar.getPrev h n)) ∧
    (∀ p d n, Scalar.getPrev (Scalar.setData h p d) n = Scalar.getPrev h n) ∧
    (∀ p g n, Scalar.getPrev (Scalar.setGrad h p g) n = Scalar.getPrev h n) ∧
    (∀ fuel root h1, Scalar.backward fuel h root = some h1 →
      ∀ n, Scalar.getPrev h1 n = Scalar.getPrev h n) ∧
    (∀ n p, p ∈ Scalar.getPrev h n → p < n ∧ n < h.next) ∧
    ∀ n, ¬ Relation.TransGen (fun x y => y ∈ Scalar.getPrev h x) n n := by
  have hw := hr.wellFormed
  refine ⟨?_, ?_, ?_, ?_, ?_, ?_, getPrev_setData h, getPrev_setGrad h, ?_, ?_, ?_⟩
  · intro v; simp [Scalar.getPrev, create_fst_cell, create_snd]
  · intro a k; simp [Scalar.getPrev, pow_cell, pow_snd]
  · intro a; simp [Scalar.getPrev, relu_cell, relu_snd]
  · intro a b; simp [Scalar.getPrev, op_add_cell, op_add_snd]
  · intro a b; simp [Scalar.getPrev, op_mul_cell, op_mul_snd]
  · intro c hc
    refine ⟨fun n _ p hp => ((hw.build c hc) n).2.1 p hp, ?_⟩
    intro n hn
    unfold Scalar.getPrev
    rw [(Build.run_frame h c).2.2.2 n hn]
  · intro fuel root h1 hres n
    exact (backward_sameGraph h fuel root h1 hres).getPrev n
  · intro n p hp
    exact hw.prev_allocated hp
  · intro n hp
    exact lt_irrefl _ (hw.transGen_lt hp)

/-- Instance of C13 on the state reached by `x = create(3); y = x * 2;
x->setData(4); y->backward()`. -/
theorem acyclicity_invariant_witness :
    ∃ h1, clientState = some h1 ∧
      (∀ n p, p ∈ Scalar.getPrev h1 n → p < n ∧ n < h1.next) ∧
      ∀ n, ¬ Relation.TransGen (fun x y => y ∈ Scalar.getPrev h1 x) n n := by
  have hsome : clientState.isSome = true := by decide!
  obtain ⟨h1, hc⟩ := Option.isSome_iff_exists.1 hsome
  exact ⟨h1, hc, (acyclicity_invariant h1 (clientState_reachable h1 hc)).2.2.2.2.2.2.2.2.2⟩

/-- C14: values are fixed once computed. `setData` on a node changes the value
of that node and nothing else: every other node keeps all its fields and the
node keeps its predecessors, gradient and lambda. For `o = add(a, b)` the value
of `o` after `a->setData(v)` is still the original `a.value + b.value`. -/
theorem setData_frame (h : Heap) (a b : Nat) (v : ℚ) (ha : a < h.next) :
    Scalar.getData (Scalar.setData h a v) a = v ∧
    (∀ q, q ≠ a → (Scalar.setData h a v).cell q = h.cell q) ∧
    Scalar.getPrev (Scalar.setData h a v) a = Scalar.getPrev h a ∧
    Scalar.getGrad (Scalar.setData h a v) a = Scalar.getGrad h a ∧
    ((Scalar.setData h a v).cell a)._backward = (h.cell a)._backward ∧
    Scalar.getData (Scalar.setData (op_add h a b).1 a v) (op_add h a b).2 =
      Scalar.getData h a + Scalar.getData h b := by
  have hna : h.next ≠ a := fun hc => (Nat.ne_of_lt ha) hc.symm
  refine ⟨by simp [Scalar.getData, Scalar.setData, Heap.write], ?_,
    by simp [Scalar.getPrev, Scalar.setData, Heap.write],
    by simp [Scalar.getGrad, Scalar.setData, Heap.write],
    by simp [Scalar.setData, Heap.write], ?_⟩
  · intro q hq
    simp [Scalar.setData, Heap.write, hq]
  · simp [Scalar.getData, Scalar.setData, Heap.write, op_add_cell, op_add_snd, hna]

/-- Instance of C14 for `a = create(2)`, `b = create(5)` and the new value 9. -/
theorem setData_frame_witness :
    Scalar.getData (Scalar.setData twoLeaves 0 9) 0 = 9 ∧
    (∀ q, q ≠ 0 → (Scalar.setData twoLeaves 0 9).cell q = twoLeaves.cell q) ∧
    Scalar.getPrev (Scalar.setData twoLeaves 0 9) 0 = Scalar.getPrev twoLeaves 0 ∧
    Scalar.getGrad (Scalar.setData twoLeaves 0 9) 0 = Scalar.getGrad twoLeaves 0 ∧
    ((Scalar.setData twoLeaves 0 9).cell 0)._backward = (twoLeaves.cell 0)._backward ∧
    Scalar.getData (Scalar.setData (op_add twoLeaves 0 1).1 0 9) (op_add twoLeaves 0 1).2 =
      Scalar.getData twoLeaves 0 + Scalar.getData twoLeaves 1 :=
  setData_frame twoLeaves 0 1 9 (by decide)

/-- C15: gradients are 0 before any pass. `create(v)` returns a leaf with value
`v`, gradient 0, no predecessor and the default lambda; the node returned by
any constructing call has gradient 0 and the call changes neither the gradient
nor the value of an existing node; `backward` on a leaf returns the heap in
which that leaf's gradient is set to 1 and nothing else is changed. -/
theorem gradient_zero_at_construction (h : Heap) (v : ℚ) :
    (Scalar.create h v).1.cell (Scalar.create h v).2 =
      { data := v, prev := [], grad := 0, _backward := Closure.noop } ∧
    IsLeaf (Scalar.create h v).1 (Scalar.create h v).2 ∧
    (∀ c : Build, Scalar.getGrad (c.run h).1 (c.run h).2 = 0 ∧
      ∀ q, q < h.next → Scalar.getGrad (c.run h).1 q = Scalar.getGrad h q ∧
        Scalar.getData (c.run h).1 q = Scalar.getData h q) ∧
    (∀ x fuel, IsLeaf h x → 1 ≤ fuel →
      Scalar.backward fuel h x = some (Scalar.setGrad h x 1) ∧
      Scalar.getGrad (Scalar.setGrad h x 1) x = 1 ∧
      Scalar.getData (Scalar.setGrad h x 1) x = Scalar.getData h x ∧
      Scalar.getPrev (Scalar.setGrad h x 1) x = Scalar.getPrev h x ∧
      ∀ q, q ≠ x → (Scalar.setGrad h x 1).cell q = h.cell q) := by
  refine ⟨by simp [create_fst_cell, create_snd], ⟨by simp [create_fst_cell, create_snd],
    by simp [create_fst_cell, create_snd]⟩, ?_, ?_⟩
  · intro c
    refine ⟨(Build.run_frame h c).2.2.1, ?_⟩
    intro q hq
    unfold Scalar.getGrad Scalar.getData
    rw [(Build.run_frame h c).2.2.2 q hq]
    exact ⟨rfl, rfl⟩
  · intro x fuel hx hf
    obtain ⟨j, rfl⟩ : ∃ j, fuel = j + 1 := ⟨fuel - 1, by omega⟩
    refine ⟨backward_leaf h x j hx, by rw [getGrad_setGrad, if_pos rfl],
      (SameGraph.setGrad h x 1).getData x, (SameGraph.setGrad h x 1).getPrev x, ?_⟩
    intro q hq
    simp [Scalar.setGrad, Heap.write, hq]

/-- Instance of C15 on the heap of two leaves: what `create(7)` allocates. -/
theorem gradient_zero_at_construction_witness :
    (Scalar.create twoLeaves 7).1.cell (Scalar.create twoLeaves 7).2 =
      { data := 7, prev := [], grad := 0, _backward := Closure.noop } ∧
    IsLeaf (Scalar.create twoLeaves 7).1 (Scalar.create twoLeaves 7).2 :=
  ⟨(gradient_zero_at_construction twoLeaves 7).1, (gradient_zero_at_construction twoLeaves 7).2.1⟩

/-- C16: quotient rule and difference rule. For distinct leaves `a`, `b` with
gradient 0 and `b.value` nonzero: after `backward(a / b)`,
`a.grad = 1 / b.value` and `b.grad = -a.value / b.value ^ 2`; after
`backward(a - b)`, `a.grad = 1` and `b.grad = -1`. Both passes return. -/
theorem quotient_rule (h : Heap) (a b : Nat) (ha : a < h.next) (hb : b < h.next) (hab : a ≠ b)
    (hla : IsLeaf h a) (hlb : IsLeaf h b)
    (hga : Scalar.getGrad h a = 0) (hgb : Scalar.getGrad h b = 0)
    (hnz : Scalar.getData h b ≠ 0) (fuel : Nat) (hf : 3 ≤ fuel) :
    (∃ h2, Scalar.backward fuel (op_div h a b).1 (op_div h a b).2 = some h2 ∧
      Scalar.getGrad h2 a = 1 / Scalar.getData h b ∧
      Scalar.getGrad h2 b = -Scalar.getData h a / Scalar.getData h b ^ 2) ∧
    (∃ h2, Scalar.backward fuel (op_sub h a b).1 (op_sub h a b).2 = some h2 ∧
      Scalar.getGrad h2 a = 1 ∧ Scalar.getGrad h2 b = -1) := by
  obtain ⟨j, rfl⟩ : ∃ j, fuel = j + 3 := ⟨fuel - 3, by omega⟩
  have hna : a ≠ h.next := Nat.ne_of_lt ha
  have hna1 : a ≠ h.next + 1 := by omega
  have hna2 : a ≠ h.next + 2 := by omega
  have hnb : b ≠ h.next := Nat.ne_of_lt hb
  have hnb1 : b ≠ h.next + 1 := by omega
  have hnb2 : b ≠ h.next + 2 := by omega
  have hna' : h.next ≠ a := fun hc => hna hc.symm
  have hna1' : h.next + 1 ≠ a := fun hc => hna1 hc.symm
  have hna2' : h.next + 2 ≠ a := fun hc => hna2 hc.symm
  have hnb' : h.next ≠ b := fun hc => hnb hc.symm
  have hnb1' : h.next + 1 ≠ b := fun hc => hnb1 hc.symm
  have hnb2' : h.next + 2 ≠ b := fun hc => hnb2 hc.symm
  have hba : b ≠ a := fun hc => hab hc.symm
  have hga1 : (h.cell a).grad = 0 := hga
  have hgb1 : (h.cell b).grad = 0 := hgb
  have hnz1 : (h.cell b).data ≠ 0 := hnz
  constructor
  · have hpa : Scalar.getPrev (op_div h a b).1 a = [] := by
      simp [Scalar.getPrev, op_div_cell, hna, hna1, hla.1]
    have hpb : Scalar.getPrev (op_div h a b).1 b = [] := by
      simp [Scalar.getPrev, op_div_cell, hnb, hnb1, hlb.1]
    have hpi : Scalar.getPrev (op_div h a b).1 h.next = [b] := by
      simp [Scalar.getPrev, op_div_cell]
    have hpo : Scalar.getPrev (op_div h a b).1 (h.next + 1) = [a, h.next] := by
      simp [Scalar.getPrev, op_div_cell]
    have htopo : topo_sort (op_div h a b).1 (j + 3) (h.next + 1) ([], []) =
        some ([a, b, h.next, h.next + 1], [b, h.next, a, h.next + 1]) := by
      rw [topo_sort]
      simp only [List.not_mem_nil, if_false, hpo, forPrev]
      rw [topo_sort_leaf _ _ _ _ _ hpa (by simp [hna1])]
      simp only [List.nil_append]
      rw [topo_sort]
      simp [hpi, forPrev, topo_sort_leaf, hpb, hnb, hnb1, hna, hba, hna', hna1', hnb', hnb1']
    refine ⟨_, by simp only [Scalar.backward, op_div_snd, htopo]; rfl, ?_, ?_⟩
    · simp [runBackward, Scalar.setGrad, Heap.write, op_div_cell, pow_cell, hna, hna1, hnb, hnb1,
        hna', hna1', hnb', hnb1', hab, hba, hla.2, hlb.2, Closure.call, addGrad, Scalar.getGrad,
        Scalar.getData, hga1, hgb1]
    · simp [runBackward, Scalar.setGrad, Heap.write, op_div_cell, pow_cell, hna, hna1, hnb, hnb1,
        hna', hna1', hnb', hnb1', hab, hba, hla.2, hlb.2, Closure.call, addGrad, Scalar.getGrad,
        Scalar.getData, hga1, hgb1]
      rw [neg_div, div_eq_mul_inv, mul_comm]
      norm_cast
  · have hpa : Scalar.getPrev (op_sub h a b).1 a = [] := by
      simp [Scalar.getPrev, op_sub_cell, hna, hna1, hna2, hla.1]
    have hpb : Scalar.getPrev (op_sub h a b).1 b = [] := by
      simp [Scalar.getPrev, op_sub_cell, hnb, hnb1, hnb2, hlb.1]
    have hpc : Scalar.getPrev (op_sub h a b).1 h.next = [] := by
      simp [Scalar.getPrev, op_sub_cell]
    have hpn : Scalar.getPrev (op_sub h a b).1 (h.next + 1) = [b, h.next] := by
      simp [Scalar.getPrev, op_sub_cell]
    have hpo : Scalar.getPrev (op_sub h a b).1 (h.next + 2) = [a, h.next + 1] := by
      simp [Scalar.getPrev, op_sub_cell]
    have htopo : topo_sort (op_sub h a b).1 (j + 3) (h.next + 2) ([], []) =
        some ([a, b, h.next, h.next + 1, h.next + 2],
          [h.next, b, h.next + 1, a, h.next + 2]) := by
      rw [topo_sort]
      simp only [List.not_mem_nil, if_false, hpo, forPrev]
      rw [topo_sort_leaf _ _ _ _ _ hpa (by simp [hna2])]
      simp only [List.nil_append]
      rw [topo_sort]
      simp [hpn, forPrev, topo_sort_leaf, hpb, hpc, hnb, hnb1, hnb2, hna, hna1, hna2, hna', hna1', hna2', hba, hnb', hnb1', hnb2']
    refine ⟨_, by simp only [Scalar.backward, op_sub_snd, htopo]; rfl, ?_, ?_⟩
    · simp [runBackward, Scalar.setGrad, Heap.write, op_sub_cell, create_fst_cell, hna, hna1,
        hna2, hnb, hnb1, hnb2, hna', hna1', hna2', hnb', hnb1', hnb2', hab, hba, hla.2, hlb.2,
        Closure.call, addGrad, Scalar.getGrad, Scalar.getData, hga1, hgb1]
    · simp [runBackward, Scalar.setGrad, Heap.write, op_sub_cell, create_fst_cell, hna, hna1,
        hna2, hnb, hnb1, hnb2, hna', hna1', hna2', hnb', hnb1', hnb2', hab, hba, hla.2, hlb.2,
        Closure.call, addGrad, Scalar.getGrad, Scalar.getData, hga1, hgb1]

/-- Instance of C16 for `a = create(2)`, `b = create(5)`. -/
theorem quotient_rule_witness :
    (∃ h2, Scalar.backward 3 (op_div twoLeaves 0 1).1 (op_div twoLeaves 0 1).2 = some h2 ∧
      Scalar.getGrad h2 0 = 1 / Scalar.getData twoLeaves 1 ∧
      Scalar.getGrad h2 1 = -Scalar.getData twoLeaves 0 / Scalar.getData twoLeaves 1 ^ 2) ∧
    (∃ h2, Scalar.backward 3 (op_sub twoLeaves 0 1).1 (op_sub twoLeaves 0 1).2 = some h2 ∧
      Scalar.getGrad h2 0 = 1 ∧ Scalar.getGrad h2 1 = -1) :=
  quotient_rule twoLeaves 0 1 (by decide) (by decide) (by decide) ⟨rfl, rfl⟩ ⟨rfl, rfl⟩ rfl rfl
    (by decide!) 3 (le_refl 3)

/-- C17: the sorter of the code, which marks a node before it visits the
predecessors, and the sorter of the specification, which visits the unvisited
predecessors first and marks the node when it appends it, agree on every DAG:
from the empty state both return, with the same output sequence and the same
set of visited nodes. -/
theorem topo_sort_refines_postmark (h : Heap) (rank : Nat → Nat) (hd : IsDag h rank)
    (root fuel : Nat) (hfuel : rank root < fuel) :
    ∃ (nodes vp vq : List Nat), topo_sort h fuel root ([], []) = some (nodes, vp) ∧
      topo_sort_postmark h fuel root ([], []) = some (nodes, vq) ∧
      ∀ d, d ∈ vp ↔ d ∈ vq := by
  obtain ⟨n1, vp1, vq1, S, hpre, hpost, hvp, hvq⟩ :=
    postmark_call h rank hd fuel root [] [] [] hfuel (fun _ _ => Iff.rfl)
  refine ⟨n1, vp1, vq1, hpre, ?_, ?_⟩
  · simpa using hpost
  · intro d
    rw [hvp, hvq]

/-- Instance of C17 on the graph `r = relu(pow(a * b + a, 2))`, in which `a`
is reached by two paths. -/
theorem topo_sort_refines_postmark_witness :
    ∃ (nodes vp vq : List Nat), topo_sort mixedGraph.1 6 5 ([], []) = some (nodes, vp) ∧
      topo_sort_postmark mixedGraph.1 6 5 ([], []) = some (nodes, vq) ∧
      ∀ d, d ∈ vp ↔ d ∈ vq :=
  topo_sort_refines_postmark mixedGraph.1 id mixedGraph_wf.isDag 5 6 (by decide)

/-- C18: frame of `backward`. On a DAG built by the operations the pass
returns; it is the run of the lambdas over a sequence `L` in which every node
reachable from the root occurs exactly once and no other node occurs; it
changes no value, no predecessor list and no lambda; and it leaves the
gradient of every node the root does not reach as it was. -/
theorem backward_frame (h : Heap) (rank : Nat → Nat) (hd : IsDag h rank)
    (hb : ∀ n, BuiltNode h n) (root fuel : Nat) (hfuel : rank root < fuel) :
    ∃ (h1 : Heap) (L : List Nat), Scalar.backward fuel h root = some h1 ∧
      h1 = runBackward (Scalar.setGrad h root 1) L ∧
      (∀ n, Reachable h root n → L.count n = 1) ∧
      (∀ n, ¬ Reachable h root n → L.count n = 0) ∧
      (∀ n, Scalar.getData h1 n = Scalar.getData h n ∧
        Scalar.getPrev h1 n = Scalar.getPrev h n ∧
        (h1.cell n)._backward = (h.cell n)._backward) ∧
      ∀ n, ¬ Reachable h root n → Scalar.getGrad h1 n = Scalar.getGrad h n := by
  obtain ⟨h1, hres, hun⟩ := backward_unreachable h rank hd hb root fuel hfuel
  obtain ⟨l, hresb, hnd, _, hmem⟩ := backward_eq h rank hd root fuel hfuel
  have hs := backward_sameGraph h fuel root h1 hres
  rw [hres] at hresb
  refine ⟨h1, root :: l, hres, Option.some.inj hresb, ?_, ?_, fun n => hs n, hun⟩
  · intro n hn
    exact List.count_eq_one_of_mem hnd ((hmem n).2 hn)
  · intro n hn
    exact List.count_eq_zero_of_not_mem (fun hc => hn ((hmem n).1 hc))

/-- Instance of C18 on the graph `r = relu(pow(a * b + a, 2))` with the pass
started at the sum, which does not reach the two nodes above it. -/
theorem backward_frame_witness :
    ∃ (h1 : Heap) (L : List Nat), Scalar.backward 4 mixedGraph.1 3 = some h1 ∧
      h1 = runBackward (Scalar.setGrad mixedGraph.1 3 1) L ∧
      (∀ n, Reachable mixedGraph.1 3 n → L.count n = 1) ∧
      (∀ n, ¬ Reachable mixedGraph.1 3 n → L.count n = 0) ∧
      (∀ n, Scalar.getData h1 n = Scalar.getData mixedGraph.1 n ∧
        Scalar.getPrev h1 n = Scalar.getPrev mixedGraph.1 n ∧
        (h1.cell n)._backward = (mixedGraph.1.cell n)._backward) ∧
      ∀ n, ¬ Reachable mixedGraph.1 3 n →
        Scalar.getGrad h1 n = Scalar.getGrad mixedGraph.1 n :=
  backward_frame mixedGraph.1 id mixedGraph_wf.isDag mixedGraph_wf.built 3 4 (by decide)

/-- C19: the lambdas read operand values when they run. For distinct leaves
`a`, `b` with gradient 0 and `o = multiply(a, b)`, after `b->setData(v)` the
value of `o` is still the original `a.value * b.value`, `backward(o)` returns,
and afterwards `a.grad = v`, the current value of `b`. -/
theorem backward_reads_current_values (h : Heap) (a b : Nat) (v : ℚ) (ha : a < h.next)
    (hb : b < h.next) (hab : a ≠ b) (hla : IsLeaf h a) (hlb : IsLeaf h b)
    (hga : Scalar.getGrad h a = 0) (hgb : Scalar.getGrad h b = 0) (fuel : Nat) (hf : 2 ≤ fuel) :
    Scalar.getData (Scalar.setData (op_mul h a b).1 b v) b = v ∧
    Scalar.getData (Scalar.setData (op_mul h a b).1 b v) (op_mul h a b).2 =
      Scalar.getData h a * Scalar.getData h b ∧
    ∃ h2, Scalar.backward fuel (Scalar.setData (op_mul h a b).1 b v) (op_mul h a b).2 = some h2 ∧
      Scalar.getGrad h2 a = v ∧
      Scalar.getData h2 (op_mul h a b).2 = Scalar.getData h a * Scalar.getData h b := by
  obtain ⟨j, rfl⟩ : ∃ j, fuel = j + 2 := ⟨fuel - 2, by omega⟩
  have hna : a ≠ h.next := Nat.ne_of_lt ha
  have hna2 : h.next ≠ a := fun hc => hna hc.symm
  have hnb : b ≠ h.next := Nat.ne_of_lt hb
  have hnb2 : h.next ≠ b := fun hc => hnb hc.symm
  have hba : b ≠ a := fun hc => hab hc.symm
  have hga1 : (h.cell a).grad = 0 := hga
  have hgb1 : (h.cell b).grad = 0 := hgb
  have hpa : Scalar.getPrev (Scalar.setData (op_mul h a b).1 b v) a = [] := by
    simp [Scalar.getPrev, Scalar.setData, Heap.write, op_mul_cell, hna, hab, hla.1]
  have hpb : Scalar.getPrev (Scalar.setData (op_mul h a b).1 b v) b = [] := by
    simp [Scalar.getPrev, Scalar.setData, Heap.write, op_mul_cell, hnb, hlb.1]
  have hpo : Scalar.getPrev (Scalar.setData (op_mul h a b).1 b v) h.next = [a, b] := by
    simp [Scalar.getPrev, Scalar.setData, Heap.write, op_mul_cell, hnb2]
  have htopo : topo_sort (Scalar.setData (op_mul h a b).1 b v) (j + 2) h.next ([], []) =
      some ([a, b, h.next], [b, a, h.next]) := by
    rw [topo_sort]
    simp [hpo, forPrev, topo_sort_leaf, hpa, hpb, hna, hnb, hba]
  refine ⟨by simp [Scalar.getData, Scalar.setData, Heap.write],
    by simp [Scalar.getData, Scalar.setData, Heap.write, op_mul_cell, op_mul_snd, hnb2],
    _, by simp only [Scalar.backward, op_mul_snd, htopo]; rfl, ?_, ?_⟩
  · simp [runBackward, Scalar.setGrad, Scalar.setData, Heap.write, op_mul_cell, hna, hna2, hnb,
      hnb2, hab, hba, hla.2, hlb.2, Closure.call, addGrad, Scalar.getGrad, Scalar.getData, hga1,
      hgb1]
  · simp [runBackward, Scalar.setGrad, Scalar.setData, Heap.write, op_mul_cell, op_mul_snd, hna,
      hna2, hnb, hnb2, hab, hba, hla.2, hlb.2, Closure.call, addGrad, Scalar.getGrad,
      Scalar.getData, hga1, hgb1]

/-- Instance of C19 for `a = create(2)`, `b = create(5)` and the new value 9 of `b`. -/
theorem backward_reads_current_values_witness :
    Scalar.getData (Scalar.setData (op_mul twoLeaves 0 1).1 1 9) 1 = 9 ∧
    Scalar.getData (Scalar.setData (op_mul twoLeaves 0 1).1 1 9) (op_mul twoLeaves 0 1).2 =
      Scalar.getData twoLeaves 0 * Scalar.getData twoLeaves 1 ∧
    ∃ h2, Scalar.backward 2 (Scalar.setData (op_mul twoLeaves 0 1).1 1 9)
        (op_mul twoLeaves 0 1).2 = some h2 ∧
      Scalar.getGrad h2 0 = 9 ∧
      Scalar.getData h2 (op_mul twoLeaves 0 1).2 =
        Scalar.getData twoLeaves 0 * Scalar.getData twoLeaves 1 :=
  backward_reads_current_values twoLeaves 0 1 9 (by decide) (by decide) (by decide) ⟨rfl, rfl⟩
    ⟨rfl, rfl⟩ rfl rfl 2 (le_refl 2)

/-- C20: `backward` is repeatable after a full reset. On a DAG built by the
operations with all gradients 0, after `backward(r)`, a `setGrad(0)` on every
node of a list `L` that holds all nodes reachable from `r`, and a second
`backward(r)`, every reachable node has the gradient it had after the first
pass. Both passes return. -/
theorem backward_after_reset (h : Heap) (rank : Nat → Nat) (hd : IsDag h rank)
    (hb : ∀ n, BuiltNode h n) (hz : ∀ n, Scalar.getGrad h n = 0) (root fuel : Nat)
    (hfuel : rank root < fuel) (L : List Nat) (hL : ∀ n, Reachable h root n → n ∈ L) :
    ∃ h1 h2, Scalar.backward fuel h root = some h1 ∧
      (∀ n, Reachable h root n → Scalar.getGrad (zero_grad h1 L) n = 0) ∧
      Scalar.backward fuel (zero_grad h1 L) root = some h2 ∧
      ∀ n, Reachable h root n → Scalar.getGrad h2 n = Scalar.getGrad h1 n := by
  obtain ⟨h1, hres1, hreach1, hun1⟩ := backward_from_zero h rank hd hb hz root fuel hfuel
  have hs1 := backward_sameGraph h fuel root h1 hres1
  have hs : SameGraph h (zero_grad h1 L) := hs1.trans (SameGraph.zero_grad h1 L)
  have hz2 : ∀ n, Scalar.getGrad (zero_grad h1 L) n = 0 := by
    intro n
    rw [getGrad_zero_grad]
    by_cases hn : n ∈ L
    · rw [if_pos hn]
    · rw [if_neg hn]
      exact hun1 n (fun hc => hn (hL n hc))
  obtain ⟨h2, hres2, hreach2, _⟩ := backward_from_zero (zero_grad h1 L) rank (hs.keepsDag hd)
    (fun n => hs.builtNode (hb n)) hz2 root fuel hfuel
  refine ⟨h1, h2, hres1, fun n _ => hz2 n, hres2, ?_⟩
  intro n hn
  rw [hreach2 n ((hs.reachable root n).2 hn), hs.chainRule, hreach1 n hn]

/-- Instance of C20 on the graph `r = relu(pow(a * b + a, 2))`, all six nodes reset. -/
theorem backward_after_reset_witness :
    ∃ h1 h2, Scalar.backward 6 mixedGraph.1 5 = some h1 ∧
      (∀ n, Reachable mixedGraph.1 5 n →
        Scalar.getGrad (zero_grad h1 [0, 1, 2, 3, 4, 5]) n = 0) ∧
      Scalar.backward 6 (zero_grad h1 [0, 1, 2, 3, 4, 5]) 5 = some h2 ∧
      ∀ n, Reachable mixedGraph.1 5 n → Scalar.getGrad h2 n = Scalar.getGrad h1 n :=
  backward_after_reset mixedGraph.1 id mixedGraph_wf.isDag mixedGraph_wf.built
    mixedGraph_grad_zero 5 6 (by decide) [0, 1, 2, 3, 4, 5] mixedGraph_reach_le

end MiniGrad
